import Mathlib

/-!
Verification of `jw::hash_map` (`include/jw/hash_map.h`) together with
`jw::details::power_of_two_growth_policy`
(`include/jw/power_of_two_growth_policy.h`): an open-addressing hash table
with linear probing and backward-shift deletion.

Modelling choices, all taken from the source:

* The templates are instantiated at `Key = T = std::size_t` (the benchmark
  uses 64-bit keys and a stateless hasher); `size_t` is modelled as `Nat`
  with an explicit `% 2 ^ 64` wherever wrap-around can matter, and the hash
  function is an arbitrary parameter `hasher : Nat → Nat`.  `KeyEqual` is
  equality on `Nat`.

* The load-factor check `size() + 1 > bucket_count() * max_load_factor()`
  compares `float`s.  A 64-bit unsigned integer converted to `float` is the
  integer rounded to 24 significant bits (round to nearest, ties to even);
  this conversion is modelled exactly by `floatRound`.  For a power-of-two
  `bucket_count()` the right-hand side `(float)bucket_count * 0.5f` is exact,
  so the whole comparison is `2 * floatRound (size + 1) > bucket_count`.

* The probe loops of the C++ code are `for (;;)` loops; they are modelled
  with fuel.  All public entry points pass fuel `bucket_count()`, and the
  termination theorems show this fuel is never exhausted on valid tables.

* `std::vector::resize(count)` fails (throws `length_error`/`bad_alloc`)
  when `count` exceeds the vector's `max_size()`; a failed operation is
  `none` and leaves the table unchanged (the code builds the new table
  fully before swapping).  Likewise the `assert(false)` in
  `compute_closest_capacity` is modelled as `none` (a fatal fail-fast
  condition).
-/

namespace JwHashMap

/-- Modulus of `std::size_t` arithmetic (64-bit). -/
def U64 : Nat := 2 ^ 64

/-- Model of `std::vector<std::pair<uint64_t, uint64_t>>::max_size()` in
libstdc++: `PTRDIFF_MAX / sizeof(value_type)` with 16-byte elements.
`resize` beyond this count throws deterministically. -/
def vector_max_size : Nat := (2 ^ 63 - 1) / 16

/-- Value of `(float)n` for a 64-bit unsigned integer `n`: `n` rounded to
24 significant bits, round to nearest, ties to even.  Exact for
`n ≤ 2 ^ 24`. -/
def floatRound (n : Nat) : Nat :=
  if n ≤ 2 ^ 24 then n
  else if 2 ^ (Nat.log 2 n - 23 - 1) < n % 2 ^ (Nat.log 2 n - 23)
      ∨ (n % 2 ^ (Nat.log 2 n - 23) = 2 ^ (Nat.log 2 n - 23 - 1)
          ∧ (n / 2 ^ (Nat.log 2 n - 23)) % 2 = 1) then
    (n / 2 ^ (Nat.log 2 n - 23) + 1) * 2 ^ (Nat.log 2 n - 23)
  else (n / 2 ^ (Nat.log 2 n - 23)) * 2 ^ (Nat.log 2 n - 23)

/-- `power_of_two_growth_policy::compute_index(hash, capacity)`:
`hash & (capacity - 1)`, where `capacity - 1` is `size_t` subtraction and
so wraps to `2 ^ 64 - 1` when `capacity = 0`. -/
def compute_index (hash capacity : Nat) : Nat :=
  hash &&& ((capacity + (U64 - 1)) % U64)

/-- `power_of_two_growth_policy::minimum_capacity()`. -/
def minimum_capacity : Nat := 8

/-- One step `x |= x >> i` of the bit-smearing loop in
`compute_closest_capacity`. -/
def smearStep (x d : Nat) : Nat := x ||| (x >>> d)

/-- `power_of_two_growth_policy::compute_closest_capacity(min_capacity)`.
The C++ decrements `min_capacity` (wrapping at 0), runs
`min_capacity |= min_capacity >> i` for `i = 1, 2, 4, 8, 16, 32`, and
increments the result (wrapping at `2 ^ 64 - 1`).  When `min_capacity`
exceeds `1 << 63` the function hits `assert(false)`, modelled as `none`. -/
def compute_closest_capacity (min_capacity : Nat) : Option Nat :=
  if 2 ^ 63 < min_capacity then
    none
  else
    some ((List.foldl smearStep ((min_capacity + (U64 - 1)) % U64)
      [1, 2, 4, 8, 16, 32] + 1) % U64)

/-- State of a `jw::hash_map<std::size_t, std::size_t>`: the reserved empty
key, the slot vector, and the logical size.  `m_max_load_factor` is the
compile-time constant `0.5f` and is inlined into the definitions below. -/
structure hash_map where
  m_empty_key : Nat
  m_buckets : List (Nat × Nat)
  m_size : Nat
deriving DecidableEq

/-- `bucket_count()`: the slot-vector length. -/
def bucket_count (hm : hash_map) : Nat := hm.m_buckets.length

/-- The slot at index `i` (the default of `getD` is irrelevant: all verified
accesses are in bounds). -/
def slotAt (hm : hash_map) (i : Nat) : Nat × Nat :=
  hm.m_buckets.getD i (hm.m_empty_key, 0)

/-- Key stored at index `i`. -/
def keyAt (hm : hash_map) (i : Nat) : Nat := (slotAt hm i).1

/-- A slot is occupied iff its key differs from the empty key (the table's
only occupancy notion; there are no tombstones). -/
def occAt (hm : hash_map) (i : Nat) : Prop := keyAt hm i ≠ hm.m_empty_key

/-- `key_to_idx(key)`: home index of a key. -/
def key_to_idx (hasher : Nat → Nat) (hm : hash_map) (key : Nat) : Nat :=
  compute_index (hasher key) (bucket_count hm)

/-- `probe_next(idx)`: successor index in the probe sequence. -/
def probe_next (hm : hash_map) (idx : Nat) : Nat :=
  compute_index (idx + 1) (bucket_count hm)

/-- `diff(a, b)`: circular distance used by the backward-shift erase.  The
inner `a - b` is wrapping `size_t` subtraction and the outer sum wraps as
well. -/
def diff (hm : hash_map) (a b : Nat) : Nat :=
  compute_index ((bucket_count hm + ((a + (U64 - b)) % U64)) % U64)
    (bucket_count hm)

/-- Constructor `hash_map(bucket_count, empty_key)`: round the requested
count up through the growth policy and resize the slot vector, every slot
`(empty_key, T())`. -/
def mk_table (bucket_count empty_key : Nat) : Option hash_map :=
  match compute_closest_capacity bucket_count with
  | none => none
  | some count =>
    if count ≤ vector_max_size then
      some ⟨empty_key, List.replicate count (empty_key, 0), 0⟩
    else none

/-- Default constructor `hash_map()`: capacity hint `minimum_capacity()`,
empty key `key_type()` (zero). -/
def mk_default : Option hash_map := mk_table minimum_capacity 0

/-- Result of `find`: an iterator to a slot, `end()`, or divergence of the
unbounded C++ probe loop (fuel exhausted). -/
inductive FindResult where
  | found (idx : Nat)
  | absent
  | diverged
deriving DecidableEq

/-- Probe loop of `find_impl`, checking for a key match first and an empty
slot second, exactly as the source does. -/
def findLoop (hm : hash_map) (key : Nat) : Nat → Nat → FindResult
  | 0, _ => .diverged
  | fuel + 1, idx =>
    if keyAt hm idx = key then .found idx
    else if keyAt hm idx = hm.m_empty_key then .absent
    else findLoop hm key fuel (probe_next hm idx)

/-- `find_impl(key)`: probe from the home index.  Fuel `bucket_count()`
suffices on every valid table (probe-termination theorem). -/
def find_impl (hasher : Nat → Nat) (hm : hash_map) (key : Nat) : FindResult :=
  findLoop hm key (bucket_count hm) (key_to_idx hasher hm key)

/-- `count_impl(key)`: 0 or 1 via `find`. -/
def count_impl (hasher : Nat → Nat) (hm : hash_map) (key : Nat) : Nat :=
  match find_impl hasher hm key with
  | .found _ => 1
  | _ => 0

/-- Probe loop of `emplace_impl`: write into the first empty slot
(value first, then key, which equals a single pair write), or return the
existing slot with `inserted = false` on a key match. -/
def probeInsert (hm : hash_map) (key val : Nat) : Nat → Nat → Option (hash_map × Nat × Bool)
  | 0, _ => none
  | fuel + 1, idx =>
    if keyAt hm idx = hm.m_empty_key then
      some ({ hm with
                m_buckets := hm.m_buckets.set idx (key, val),
                m_size := hm.m_size + 1 }, idx, true)
    else if keyAt hm idx = key then
      some (hm, idx, false)
    else probeInsert hm key val fuel (probe_next hm idx)

/-- Condition of `check_for_rehash()`:
`size() + 1 > bucket_count() * max_load_factor()`, a `float` comparison.
For the power-of-two capacities the table maintains,
`(float)bucket_count() * 0.5f` is exact, so the comparison equals
`2 * floatRound (m_size + 1) > bucket_count`. -/
def needs_rehash (hm : hash_map) : Prop :=
  bucket_count hm < 2 * floatRound (hm.m_size + 1)

instance (hm : hash_map) : Decidable (needs_rehash hm) := by
  unfold needs_rehash; infer_instance

/-- Re-insertion loop of the copy constructor `hash_map(other, count)`: walk
the old slot vector in index order, skipping empty slots, and `insert` each
occupied entry into the new table (`emp` is the inserting function). -/
def rehashFold (emp : hash_map → Nat → Nat → Option (hash_map × Nat × Bool))
    (empty_key : Nat) : Option hash_map → List (Nat × Nat) → Option hash_map
  | none, _ => none
  | some acc, [] => some acc
  | some acc, s :: rest =>
    if s.1 = empty_key then rehashFold emp empty_key (some acc) rest
    else
      match emp acc s.1 s.2 with
      | none => none
      | some (acc2, _, _) => rehashFold emp empty_key (some acc2) rest

/-- `rehash(count)` parameterised by the inserting function used for
re-insertion: clamp `count` below by `minimum_capacity()` and by
`size() / max_load_factor()` (a `float` division by `0.5f`, exact doubling
of `floatRound size`, truncated back to `size_type`), round through the
growth policy, build a fresh table of that capacity (the constructor rounds
again, idempotently), re-insert every occupied entry, and swap. -/
def rehashWith (emp : hash_map → Nat → Nat → Option (hash_map × Nat × Bool))
    (hm : hash_map) (count : Nat) : Option hash_map :=
  match compute_closest_capacity
      (max (max minimum_capacity count) (2 * floatRound hm.m_size)) with
  | none => none
  | some count3 =>
    match mk_table count3 hm.m_empty_key with
    | none => none
    | some fresh => rehashFold emp hm.m_empty_key (some fresh) hm.m_buckets

/-- `emplace_impl(key, args...)`: `check_for_rehash()` first — if the load
check fires, `rehash(bucket_count() << 2)` (the shift wraps in `size_t`),
whose re-insertions recursively call `insert`; the recursion depth is the
fuel `rfuel` — then the probe loop.  Fuel 1 suffices on valid tables: a
rehash triggered by an insert never itself triggers a rehash. -/
def emplace_impl (hasher : Nat → Nat) (rfuel : Nat) (hm : hash_map)
    (key val : Nat) : Option (hash_map × Nat × Bool) :=
  if needs_rehash hm then
    match rfuel with
    | 0 => none
    | r + 1 =>
      match rehashWith (fun hm2 key2 val2 => emplace_impl hasher r hm2 key2 val2)
          hm ((bucket_count hm <<< 2) % U64) with
      | none => none
      | some hm2 => probeInsert hm2 key val (bucket_count hm2) (key_to_idx hasher hm2 key)
  else probeInsert hm key val (bucket_count hm) (key_to_idx hasher hm key)

/-- `insert(value)` / `emplace(key, val)`: `emplace_impl` with enough rehash
fuel for the single rehash a valid insert can trigger. -/
def insert (hasher : Nat → Nat) (hm : hash_map) (key val : Nat) :
    Option (hash_map × Nat × Bool) :=
  emplace_impl hasher 1 hm key val

/-- Public `rehash(count)`: re-insertions go through `insert`. -/
def rehash (hasher : Nat → Nat) (hm : hash_map) (count : Nat) : Option hash_map :=
  rehashWith (fun hm2 key2 val2 => emplace_impl hasher 1 hm2 key2 val2) hm count

/-- `reserve(count)`: `rehash(ceil(count / max_load_factor()))`; the `float`
division by `0.5f` is an exact doubling of `floatRound count`, already
integral, so `ceil` is the identity. -/
def reserve (hasher : Nat → Nat) (hm : hash_map) (count : Nat) : Option hash_map :=
  rehash hasher hm (2 * floatRound count)

/-- Backward-shift loop of `erase_impl(iterator)`: `bucket` is the slot
being vacated; scan forward from it.  An empty slot ends the scan: write
the empty key into `bucket` (keeping the stale value) and decrement the
size.  Otherwise move the scanned entry into `bucket` when `bucket` is not
farther from the entry's home than the entry itself is. -/
def eraseLoop (hasher : Nat → Nat) : Nat → hash_map → Nat → Nat → Option hash_map
  | 0, _, _, _ => none
  | fuel + 1, hm, bucket, idx =>
    if keyAt hm idx = hm.m_empty_key then
      some { hm with
               m_buckets := hm.m_buckets.set bucket (hm.m_empty_key, (slotAt hm bucket).2),
               m_size := hm.m_size - 1 }
    else
      if diff hm bucket (key_to_idx hasher hm (keyAt hm idx))
          < diff hm idx (key_to_idx hasher hm (keyAt hm idx)) then
        eraseLoop hasher fuel
          { hm with m_buckets := hm.m_buckets.set bucket (slotAt hm idx) }
          idx (probe_next hm idx)
      else
        eraseLoop hasher fuel hm bucket (probe_next hm idx)

/-- `erase(key)`: `find`, then the backward-shift loop starting one past the
found slot; returns the number of erased entries and the new state. -/
def erase_impl (hasher : Nat → Nat) (hm : hash_map) (key : Nat) :
    Option (Nat × hash_map) :=
  match find_impl hasher hm key with
  | .found idx =>
    match eraseLoop hasher (bucket_count hm) hm idx (probe_next hm idx) with
    | some hm2 => some (1, hm2)
    | none => none
  | .absent => some (0, hm)
  | .diverged => none

/-- `clear()`: overwrite every occupied slot's key with the empty key
(values stay), and zero the size. -/
def clear (hm : hash_map) : hash_map :=
  { hm with
      m_buckets := hm.m_buckets.map fun b =>
        if b.1 ≠ hm.m_empty_key then (hm.m_empty_key, b.2) else b,
      m_size := 0 }

/-- `operator[](key)`: `emplace_impl(key)` with a default-constructed value
`T()` (zero); returns the new state and the slot index whose value field the
reference denotes. -/
def op_index (hasher : Nat → Nat) (hm : hash_map) (key : Nat) :
    Option (hash_map × Nat) :=
  match emplace_impl hasher 1 hm key 0 with
  | some (hm2, idx, _) => some (hm2, idx)
  | none => none

/-- `swap(other)`: whole-state exchange. -/
def swap (hm other : hash_map) : hash_map × hash_map := (other, hm)

/-- Number of occupied slots. -/
def countOcc (hm : hash_map) : Nat :=
  hm.m_buckets.countP fun s => !(s.1 == hm.m_empty_key)

/-- The abstract mapping of the table: `(k, v)` is held by some slot. -/
def mapsTo (hm : hash_map) (k v : Nat) : Prop :=
  k ≠ hm.m_empty_key ∧ ∃ i, i < bucket_count hm ∧ slotAt hm i = (k, v)

/-- Forward circular distance from `x` to `y` on a ring of `c` slots. -/
def cdist (c x y : Nat) : Nat := (c + y - x) % c

/-- Well-formedness of a table state, as maintained by the operations:
power-of-two capacity small enough for the vector, size agreeing with the
occupied-slot count, the (float-rounded) load bound, pairwise-distinct
occupied keys, and probe-sequence contiguity: every occupied slot is
reachable from its key's home index without crossing an empty slot. -/
structure WF (hasher : Nat → Nat) (hm : hash_map) : Prop where
  cap_pow : ∃ k, k ≤ 58 ∧ bucket_count hm = 2 ^ k
  size_eq : hm.m_size = countOcc hm
  load : 2 * floatRound hm.m_size ≤ bucket_count hm
  distinct : ∀ i j, i < bucket_count hm → j < bucket_count hm → i ≠ j →
      occAt hm i → occAt hm j → keyAt hm i ≠ keyAt hm j
  contig : ∀ p, p < bucket_count hm → occAt hm p →
      ∀ t, t < cdist (bucket_count hm) (key_to_idx hasher hm (keyAt hm p)) p →
        occAt hm ((key_to_idx hasher hm (keyAt hm p) + t) % bucket_count hm)

/-- Number of significant bits of `n`. -/
def bitlen (n : Nat) : Nat := if n = 0 then 0 else Nat.log 2 n + 1

/-- Boolean power-of-two test. -/
def is_pow_two (n : Nat) : Bool := n == 2 ^ Nat.log 2 n

/-- Table states reachable through the public interface: any constructor
with a nonzero capacity hint, then any sequence of completed mutating
operations, each respecting the documented precondition that user keys
differ from the empty key. -/
inductive Reach (hasher : Nat → Nat) : hash_map → Prop where
  | ctor : ∀ hint ek hm, 1 ≤ hint → mk_table hint ek = some hm → Reach hasher hm
  | ins : ∀ hm key val hm2 idx b, Reach hasher hm → key ≠ hm.m_empty_key →
      insert hasher hm key val = some (hm2, idx, b) → Reach hasher hm2
  | del : ∀ hm key n hm2, Reach hasher hm → key ≠ hm.m_empty_key →
      erase_impl hasher hm key = some (n, hm2) → Reach hasher hm2
  | reh : ∀ hm count hm2, Reach hasher hm → rehash hasher hm count = some hm2 →
      Reach hasher hm2
  | res : ∀ hm count hm2, Reach hasher hm → reserve hasher hm count = some hm2 →
      Reach hasher hm2
  | clr : ∀ hm, Reach hasher hm → Reach hasher (clear hm)
  | idx : ∀ hm key hm2 i, Reach hasher hm → key ≠ hm.m_empty_key →
      op_index hasher hm key = some (hm2, i) → Reach hasher hm2

/-- A mutating operation, for stating persistence across operation
sequences. -/
inductive TableOp where
  | ins (key val : Nat)
  | del (key : Nat)
  | reh (count : Nat)
deriving DecidableEq

/-- Apply one operation; `none` is an operation that did not complete. -/
def applyOp (hasher : Nat → Nat) (hm : hash_map) : TableOp → Option hash_map
  | .ins k v => (insert hasher hm k v).map fun r => r.1
  | .del k => (erase_impl hasher hm k).map fun r => r.2
  | .reh n => rehash hasher hm n

/-- Apply a sequence of operations left to right. -/
def applyOps (hasher : Nat → Nat) : hash_map → List TableOp → Option hash_map
  | hm, [] => some hm
  | hm, op :: rest =>
    match applyOp hasher hm op with
    | none => none
    | some hm2 => applyOps hasher hm2 rest

/-- An operation that neither inserts nor erases the protected key `key`
(and uses no empty-key argument, per the interface precondition). -/
def avoidsKey (key ek : Nat) : TableOp → Prop
  | .ins k _ => k ≠ key ∧ k ≠ ek
  | .del k => k ≠ key ∧ k ≠ ek
  | .reh _ => True

/-- `find` succeeds and the found slot holds exactly the pair `(k, v)`. -/
def findsPair (hasher : Nat → Nat) (hm : hash_map) (k v : Nat) : Prop :=
  ∃ i, find_impl hasher hm k = .found i ∧ slotAt hm i = (k, v)

/-- The table with empty key 0 and capacity `cap` holding keys `1 .. n`
(value 0) in their home slots under the identity hasher.  This is the exact
state reached from an empty table by inserting keys `1, 2, …, n` in order,
used for the large-scale load-factor counterexamples. -/
def idState (cap n : Nat) : hash_map :=
  ⟨0, (List.range cap).map fun i => if 1 ≤ i ∧ i ≤ n then (i, 0) else (0, 0), n⟩

/-! ### Properties of the float conversion -/

theorem floatRound_exact {n : Nat} (h : n ≤ 2 ^ 24) : floatRound n = n := by
  rw [floatRound, if_pos h]

theorem floatRound_big_eq {n : Nat} (h : 2 ^ 24 < n) :
    floatRound n =
      if 2 ^ (Nat.log 2 n - 23 - 1) < n % 2 ^ (Nat.log 2 n - 23)
          ∨ (n % 2 ^ (Nat.log 2 n - 23) = 2 ^ (Nat.log 2 n - 23 - 1)
              ∧ n / 2 ^ (Nat.log 2 n - 23) % 2 = 1) then
        (n / 2 ^ (Nat.log 2 n - 23) + 1) * 2 ^ (Nat.log 2 n - 23)
      else n / 2 ^ (Nat.log 2 n - 23) * 2 ^ (Nat.log 2 n - 23) := by
  rw [floatRound, if_neg (by omega)]

theorem log_bounds {n : Nat} (h : 2 ^ 24 < n) :
    24 ≤ Nat.log 2 n ∧ 2 ^ Nat.log 2 n ≤ n ∧ n < 2 ^ (Nat.log 2 n + 1) := by
  have h1 : 2 ^ Nat.log 2 n ≤ n := Nat.pow_log_le_self 2 (by omega)
  have h2 : n < 2 ^ (Nat.log 2 n + 1) := Nat.lt_pow_succ_log_self (by norm_num) n
  refine ⟨?_, h1, h2⟩
  by_contra hlt
  push_neg at hlt
  have : (2 : Nat) ^ (Nat.log 2 n + 1) ≤ 2 ^ 24 :=
    Nat.pow_le_pow_right (by norm_num) (by omega)
  omega

theorem floatRound_q_bounds {n : Nat} (h : 2 ^ 24 < n) :
    2 ^ 23 ≤ n / 2 ^ (Nat.log 2 n - 23) ∧ n / 2 ^ (Nat.log 2 n - 23) < 2 ^ 24 := by
  obtain ⟨hL, hlow, hhigh⟩ := log_bounds h
  constructor
  · have h1 : 2 ^ Nat.log 2 n / 2 ^ (Nat.log 2 n - 23) ≤ n / 2 ^ (Nat.log 2 n - 23) :=
      Nat.div_le_div_right hlow
    rwa [Nat.pow_div (by omega) (by norm_num),
      show Nat.log 2 n - (Nat.log 2 n - 23) = 23 by omega] at h1
  · rw [Nat.div_lt_iff_lt_mul (by positivity), ← pow_add,
      show 24 + (Nat.log 2 n - 23) = Nat.log 2 n + 1 by omega]
    exact hhigh

theorem floatRound_big_bounds {n : Nat} (h : 2 ^ 24 < n) :
    n / 2 ^ (Nat.log 2 n - 23) * 2 ^ (Nat.log 2 n - 23) ≤ floatRound n ∧
    floatRound n ≤ (n / 2 ^ (Nat.log 2 n - 23) + 1) * 2 ^ (Nat.log 2 n - 23) := by
  rw [floatRound, if_neg (by omega)]
  have hexp : n / 2 ^ (Nat.log 2 n - 23) * 2 ^ (Nat.log 2 n - 23) + 2 ^ (Nat.log 2 n - 23)
      = (n / 2 ^ (Nat.log 2 n - 23) + 1) * 2 ^ (Nat.log 2 n - 23) := by ring
  split <;> omega

theorem floatRound_le (n : Nat) : floatRound n ≤ n + n / 2 ^ 24 := by
  by_cases h : n ≤ 2 ^ 24
  · rw [floatRound_exact h]; omega
  push_neg at h
  obtain ⟨hL, hlow, hhigh⟩ := log_bounds h
  have hdm := Nat.div_add_mod n (2 ^ (Nat.log 2 n - 23))
  have hrlt : n % 2 ^ (Nat.log 2 n - 23) < 2 ^ (Nat.log 2 n - 23) :=
    Nat.mod_lt _ (by positivity)
  have hhalf : 2 ^ (Nat.log 2 n - 23 - 1) ≤ n / 2 ^ 24 := by
    have h1 : 2 ^ Nat.log 2 n / 2 ^ 24 ≤ n / 2 ^ 24 := Nat.div_le_div_right hlow
    rwa [Nat.pow_div (by omega) (by norm_num),
      show Nat.log 2 n - 24 = Nat.log 2 n - 23 - 1 by omega] at h1
  have he1 : 2 ^ (Nat.log 2 n - 23 - 1) + 2 ^ (Nat.log 2 n - 23 - 1)
      = 2 ^ (Nat.log 2 n - 23) := by
    rw [← two_mul, ← pow_succ']
    congr 1
    omega
  have hor : n / 2 ^ (Nat.log 2 n - 23) * 2 ^ (Nat.log 2 n - 23)
      = 2 ^ (Nat.log 2 n - 23) * (n / 2 ^ (Nat.log 2 n - 23)) := Nat.mul_comm _ _
  have hexp : (n / 2 ^ (Nat.log 2 n - 23) + 1) * 2 ^ (Nat.log 2 n - 23)
      = n / 2 ^ (Nat.log 2 n - 23) * 2 ^ (Nat.log 2 n - 23) + 2 ^ (Nat.log 2 n - 23) := by
    ring
  rw [floatRound, if_neg (by omega)]
  split
  · rename_i hcond
    have hr : 2 ^ (Nat.log 2 n - 23 - 1) ≤ n % 2 ^ (Nat.log 2 n - 23) := by
      rcases hcond with h1 | ⟨h1, _⟩ <;> omega
    omega
  · omega

theorem floatRound_ge (n : Nat) : n ≤ floatRound n + n / 2 ^ 24 := by
  by_cases h : n ≤ 2 ^ 24
  · rw [floatRound_exact h]; omega
  push_neg at h
  obtain ⟨hL, hlow, hhigh⟩ := log_bounds h
  have hdm := Nat.div_add_mod n (2 ^ (Nat.log 2 n - 23))
  have hhalf : 2 ^ (Nat.log 2 n - 23 - 1) ≤ n / 2 ^ 24 := by
    have h1 : 2 ^ Nat.log 2 n / 2 ^ 24 ≤ n / 2 ^ 24 := Nat.div_le_div_right hlow
    rwa [Nat.pow_div (by omega) (by norm_num),
      show Nat.log 2 n - 24 = Nat.log 2 n - 23 - 1 by omega] at h1
  have hor : n / 2 ^ (Nat.log 2 n - 23) * 2 ^ (Nat.log 2 n - 23)
      = 2 ^ (Nat.log 2 n - 23) * (n / 2 ^ (Nat.log 2 n - 23)) := Nat.mul_comm _ _
  have hexp : (n / 2 ^ (Nat.log 2 n - 23) + 1) * 2 ^ (Nat.log 2 n - 23)
      = n / 2 ^ (Nat.log 2 n - 23) * 2 ^ (Nat.log 2 n - 23) + 2 ^ (Nat.log 2 n - 23) := by
    ring
  rw [floatRound, if_neg (by omega)]
  split
  · omega
  · rename_i hcond
    push_neg at hcond
    have hr : n % 2 ^ (Nat.log 2 n - 23) ≤ 2 ^ (Nat.log 2 n - 23 - 1) := by
      rcases Nat.lt_or_ge (n % 2 ^ (Nat.log 2 n - 23)) (2 ^ (Nat.log 2 n - 23 - 1)) with h1 | h1
      · omega
      · omega
    omega

theorem floatRound_pos {n : Nat} (h : 0 < n) : 0 < floatRound n := by
  by_cases hs : n ≤ 2 ^ 24
  · rwa [floatRound_exact hs]
  push_neg at hs
  obtain ⟨hq, _⟩ := floatRound_q_bounds hs
  obtain ⟨h1, _⟩ := floatRound_big_bounds hs
  have h2 : 0 < n / 2 ^ (Nat.log 2 n - 23) * 2 ^ (Nat.log 2 n - 23) :=
    Nat.mul_pos (by omega) (by positivity)
  omega

theorem floatRound_two_pow (k : Nat) : floatRound (2 ^ k) = 2 ^ k := by
  by_cases hk : k ≤ 24
  · exact floatRound_exact (Nat.pow_le_pow_right (by norm_num) hk)
  push_neg at hk
  have hbig : (2 : Nat) ^ 24 < 2 ^ k := Nat.pow_lt_pow_right (by norm_num) (by omega)
  have hlog : Nat.log 2 (2 ^ k) = k := Nat.log_pow (by norm_num) k
  have hmod : 2 ^ k % 2 ^ (k - 23) = 0 :=
    Nat.mod_eq_zero_of_dvd (pow_dvd_pow 2 (by omega))
  rw [floatRound, if_neg (by omega), hlog, hmod]
  have hpos : (0 : Nat) < 2 ^ (k - 23 - 1) := by positivity
  rw [if_neg (by omega)]
  rw [Nat.pow_div (by omega) (by norm_num), ← pow_add]
  congr 1
  omega

theorem floatRound_mono {n m : Nat} (h : n ≤ m) : floatRound n ≤ floatRound m := by
  by_cases hm : m ≤ 2 ^ 24
  · rw [floatRound_exact hm, floatRound_exact (le_trans h hm)]; exact h
  push_neg at hm
  obtain ⟨hqm, hqm2⟩ := floatRound_q_bounds hm
  obtain ⟨h1m, h2m⟩ := floatRound_big_bounds hm
  by_cases hn : n ≤ 2 ^ 24
  · rw [floatRound_exact hn]
    obtain ⟨hLm, hlowm, hhighm⟩ := log_bounds hm
    have s1 : 2 ^ 23 * 2 ^ (Nat.log 2 m - 23)
        ≤ m / 2 ^ (Nat.log 2 m - 23) * 2 ^ (Nat.log 2 m - 23) :=
      Nat.mul_le_mul_right _ hqm
    have s2 : (2 : Nat) ^ 23 * 2 ^ (Nat.log 2 m - 23) = 2 ^ (23 + (Nat.log 2 m - 23)) := by
      rw [← pow_add]
    have s3 : (2 : Nat) ^ 24 ≤ 2 ^ (23 + (Nat.log 2 m - 23)) :=
      Nat.pow_le_pow_right (by norm_num) (by omega)
    omega
  push_neg at hn
  obtain ⟨hLn, hlown, hhighn⟩ := log_bounds hn
  obtain ⟨hLm, hlowm, hhighm⟩ := log_bounds hm
  obtain ⟨hqn, hqn2⟩ := floatRound_q_bounds hn
  obtain ⟨h1n, h2n⟩ := floatRound_big_bounds hn
  have hLle : Nat.log 2 n ≤ Nat.log 2 m := Nat.log_mono_right h
  rcases Nat.lt_or_ge (Nat.log 2 n) (Nat.log 2 m) with hLlt | hLge
  · have s1 : (n / 2 ^ (Nat.log 2 n - 23) + 1) * 2 ^ (Nat.log 2 n - 23)
        ≤ 2 ^ 24 * 2 ^ (Nat.log 2 n - 23) :=
      Nat.mul_le_mul_right _ (by omega)
    have s2 : (2 : Nat) ^ 24 * 2 ^ (Nat.log 2 n - 23) = 2 ^ (24 + (Nat.log 2 n - 23)) := by
      rw [← pow_add]
    have s3 : (2 : Nat) ^ (24 + (Nat.log 2 n - 23)) ≤ 2 ^ (23 + (Nat.log 2 m - 23)) :=
      Nat.pow_le_pow_right (by norm_num) (by omega)
    have s4 : (2 : Nat) ^ 23 * 2 ^ (Nat.log 2 m - 23) = 2 ^ (23 + (Nat.log 2 m - 23)) := by
      rw [← pow_add]
    have s5 : 2 ^ 23 * 2 ^ (Nat.log 2 m - 23)
        ≤ m / 2 ^ (Nat.log 2 m - 23) * 2 ^ (Nat.log 2 m - 23) :=
      Nat.mul_le_mul_right _ hqm
    omega
  · have hLeq : Nat.log 2 n = Nat.log 2 m := le_antisymm hLle hLge
    have hqle : n / 2 ^ (Nat.log 2 m - 23) ≤ m / 2 ^ (Nat.log 2 m - 23) :=
      Nat.div_le_div_right h
    rw [floatRound_big_eq hn, floatRound_big_eq hm, hLeq]
    rcases Nat.lt_or_ge (n / 2 ^ (Nat.log 2 m - 23)) (m / 2 ^ (Nat.log 2 m - 23)) with hq | hq
    · have b1 : (n / 2 ^ (Nat.log 2 m - 23) + 1) * 2 ^ (Nat.log 2 m - 23)
          ≤ m / 2 ^ (Nat.log 2 m - 23) * 2 ^ (Nat.log 2 m - 23) :=
        Nat.mul_le_mul_right _ (by omega)
      have b2 : (n / 2 ^ (Nat.log 2 m - 23) + 1) * 2 ^ (Nat.log 2 m - 23)
          = n / 2 ^ (Nat.log 2 m - 23) * 2 ^ (Nat.log 2 m - 23) + 2 ^ (Nat.log 2 m - 23) := by
        ring
      have b3 : (m / 2 ^ (Nat.log 2 m - 23) + 1) * 2 ^ (Nat.log 2 m - 23)
          = m / 2 ^ (Nat.log 2 m - 23) * 2 ^ (Nat.log 2 m - 23) + 2 ^ (Nat.log 2 m - 23) := by
        ring
      split <;> split <;> omega
    · have hqeq : n / 2 ^ (Nat.log 2 m - 23) = m / 2 ^ (Nat.log 2 m - 23) :=
        le_antisymm hqle hq
      have hdn := Nat.div_add_mod n (2 ^ (Nat.log 2 m - 23))
      have hdm2 := Nat.div_add_mod m (2 ^ (Nat.log 2 m - 23))
      have hrle : n % 2 ^ (Nat.log 2 m - 23) ≤ m % 2 ^ (Nat.log 2 m - 23) := by
        rw [hqeq] at hdn
        omega
      rw [hqeq]
      have b2 : (m / 2 ^ (Nat.log 2 m - 23) + 1) * 2 ^ (Nat.log 2 m - 23)
          = m / 2 ^ (Nat.log 2 m - 23) * 2 ^ (Nat.log 2 m - 23) + 2 ^ (Nat.log 2 m - 23) := by
        ring
      split
      · rename_i hcn
        have hcm : 2 ^ (Nat.log 2 m - 23 - 1) < m % 2 ^ (Nat.log 2 m - 23)
            ∨ (m % 2 ^ (Nat.log 2 m - 23) = 2 ^ (Nat.log 2 m - 23 - 1)
                ∧ m / 2 ^ (Nat.log 2 m - 23) % 2 = 1) := by
          rcases hcn with h1 | ⟨h1, h2⟩
          · rcases Nat.lt_or_ge (2 ^ (Nat.log 2 m - 23 - 1)) (m % 2 ^ (Nat.log 2 m - 23)) with
              h3 | h3
            · exact Or.inl h3
            · omega
          · rcases Nat.lt_or_ge (2 ^ (Nat.log 2 m - 23 - 1)) (m % 2 ^ (Nat.log 2 m - 23)) with
              h3 | h3
            · exact Or.inl h3
            · exact Or.inr ⟨by omega, h2⟩
        rw [if_pos hcm]
      · split <;> omega

/-! ### Circular-distance toolkit -/

theorem cdist_char {c x y : Nat} (hx : x < c) (hy : y < c) :
    cdist c x y = if x ≤ y then y - x else c + y - x := by
  unfold cdist
  split
  · rw [show c + y - x = c + (y - x) by omega, Nat.add_mod_left]
    exact Nat.mod_eq_of_lt (by omega)
  · exact Nat.mod_eq_of_lt (by omega)

theorem cdist_lt {c : Nat} (x y : Nat) (hc : 0 < c) : cdist c x y < c :=
  Nat.mod_lt _ hc

theorem cdist_self (c x : Nat) : cdist c x x = 0 := by
  unfold cdist
  rw [show c + x - x = c by omega]
  exact Nat.mod_self c

theorem cdist_eq_zero_iff {c x y : Nat} (hx : x < c) (hy : y < c) :
    cdist c x y = 0 ↔ x = y := by
  rw [cdist_char hx hy]
  split <;> omega

theorem pos_add_cdist {c x y : Nat} (hx : x < c) (hy : y < c) :
    (x + cdist c x y) % c = y := by
  rw [cdist_char hx hy]
  split
  · rw [show x + (y - x) = y by omega]
    exact Nat.mod_eq_of_lt hy
  · rw [show x + (c + y - x) = c + y by omega, Nat.add_mod_left]
    exact Nat.mod_eq_of_lt hy

theorem cdist_add {c x : Nat} (hx : x < c) {t : Nat} (ht : t < c) :
    cdist c x ((x + t) % c) = t := by
  have h1 : (x + t) % c < c := Nat.mod_lt _ (by omega)
  rcases Nat.lt_or_ge (x + t) c with hlt | hge
  · rw [Nat.mod_eq_of_lt hlt, cdist_char hx (by omega)]
    split <;> omega
  · have h2 : (x + t) % c = x + t - c := by
      rw [Nat.mod_eq_sub_mod hge]
      exact Nat.mod_eq_of_lt (by omega)
    rw [h2, cdist_char hx (by omega)]
    split <;> omega

theorem cdist_inj {c x y z : Nat} (hx : x < c) (hy : y < c) (hz : z < c)
    (h : cdist c x y = cdist c x z) : y = z := by
  have h1 := pos_add_cdist hx hy
  have h2 := pos_add_cdist hx hz
  rw [h] at h1
  rw [h1] at h2
  exact h2

theorem cdist_succ {c s e : Nat} (hs : s < c) (he : e < c) (hne : s ≠ e) :
    cdist c ((s + 1) % c) e + 1 = cdist c s e := by
  rcases Nat.lt_or_ge (s + 1) c with hlt | hge
  · rw [Nat.mod_eq_of_lt hlt, cdist_char (by omega) he, cdist_char hs he]
    split <;> split <;> omega
  · have hsc : (s + 1) % c = 0 := by
      rw [show s + 1 = c by omega]
      exact Nat.mod_self c
    rw [hsc, cdist_char (by omega) he, cdist_char hs he]
    split <;> split <;> omega

theorem cdist_succ_self {c s : Nat} (hs : s < c) (hc : 2 ≤ c) :
    cdist c ((s + 1) % c) s = c - 1 := by
  rcases Nat.lt_or_ge (s + 1) c with hlt | hge
  · rw [Nat.mod_eq_of_lt hlt, cdist_char (by omega) hs]
    split <;> omega
  · have hsc : (s + 1) % c = 0 := by
      rw [show s + 1 = c by omega]
      exact Nat.mod_self c
    rw [hsc, cdist_char (by omega) hs]
    split <;> omega

theorem cdist_succ_right {c x y : Nat} (hx : x < c) (hy : y < c)
    (h : (y + 1) % c ≠ x) : cdist c x ((y + 1) % c) = cdist c x y + 1 := by
  rcases Nat.lt_or_ge (y + 1) c with hlt | hge
  · rw [Nat.mod_eq_of_lt hlt] at h ⊢
    rw [cdist_char hx (by omega), cdist_char hx hy]
    split_ifs <;> omega
  · have hyc : y + 1 = c := by omega
    have h0 : (y + 1) % c = 0 := by
      rw [hyc]
      exact Nat.mod_self c
    rw [h0] at h ⊢
    rw [cdist_char hx (by omega), cdist_char hx hy]
    split_ifs <;> omega

theorem arc_avoids {c a p b q : Nat} (ha : a < c) (hp : p < c) (hb : b < c)
    (hq : q < c) (h1 : cdist c a p < cdist c a b) (h2 : cdist c a q ≤ cdist c a p) :
    1 ≤ cdist c b q ∧ cdist c b q ≤ cdist c b p := by
  rw [cdist_char ha hp, cdist_char ha hb] at h1
  rw [cdist_char ha hq] at h2
  rw [cdist_char ha hp] at h2
  rw [cdist_char hb hq, cdist_char hb hp]
  split_ifs at h1 h2 ⊢ <;> omega

theorem cdist_split {c a b d : Nat} (ha : a < c) (hb : b < c) (hd : d < c)
    (h : cdist c a b ≤ cdist c a d) :
    cdist c a b + cdist c b d = cdist c a d := by
  rw [cdist_char ha hb, cdist_char ha hd] at h
  rw [cdist_char ha hb, cdist_char hb hd, cdist_char ha hd]
  split_ifs at h ⊢ <;> omega

/-! ### Index arithmetic of the growth policy -/

theorem compute_index_eq_mod {h k : Nat} (hk : k ≤ 63) :
    compute_index h (2 ^ k) = h % 2 ^ k := by
  unfold compute_index U64
  have hle : (2 : Nat) ^ k ≤ 2 ^ 63 := Nat.pow_le_pow_right (by norm_num) hk
  have hpos : (0 : Nat) < 2 ^ k := by positivity
  have h1 : (2 ^ k + (2 ^ 64 - 1)) % 2 ^ 64 = 2 ^ k - 1 := by
    rw [show (2 : Nat) ^ k + (2 ^ 64 - 1) = 2 ^ 64 + (2 ^ k - 1) by omega,
      Nat.add_mod_left]
    exact Nat.mod_eq_of_lt (by omega)
  rw [h1, Nat.and_pow_two_sub_one_eq_mod]

theorem compute_index_lt {h k : Nat} (hk : k ≤ 63) :
    compute_index h (2 ^ k) < 2 ^ k := by
  rw [compute_index_eq_mod hk]
  exact Nat.mod_lt _ (by positivity)

theorem key_to_idx_eq {hasher : Nat → Nat} {hm : hash_map} {key k : Nat}
    (hcap : bucket_count hm = 2 ^ k) (hk : k ≤ 63) :
    key_to_idx hasher hm key = hasher key % bucket_count hm := by
  unfold key_to_idx
  rw [hcap, compute_index_eq_mod hk]

theorem key_to_idx_lt {hasher : Nat → Nat} {hm : hash_map} {key k : Nat}
    (hcap : bucket_count hm = 2 ^ k) (hk : k ≤ 63) :
    key_to_idx hasher hm key < bucket_count hm := by
  rw [key_to_idx_eq hcap hk]
  exact Nat.mod_lt _ (by rw [hcap]; positivity)

theorem probe_next_eq {hm : hash_map} {i k : Nat}
    (hcap : bucket_count hm = 2 ^ k) (hk : k ≤ 63) :
    probe_next hm i = (i + 1) % bucket_count hm := by
  unfold probe_next
  rw [hcap, compute_index_eq_mod hk]

theorem probe_next_lt {hm : hash_map} {i k : Nat}
    (hcap : bucket_count hm = 2 ^ k) (hk : k ≤ 63) :
    probe_next hm i < bucket_count hm := by
  rw [probe_next_eq hcap hk]
  exact Nat.mod_lt _ (by rw [hcap]; positivity)

theorem diff_eq_cdist {hm : hash_map} {k a b : Nat}
    (hcap : bucket_count hm = 2 ^ k) (hk : k ≤ 63)
    (hb : b < bucket_count hm) :
    diff hm a b = cdist (bucket_count hm) b a := by
  unfold diff
  rw [hcap] at hb ⊢
  rw [compute_index_eq_mod hk]
  have hdvd : (2 : Nat) ^ k ∣ U64 := by
    unfold U64
    exact pow_dvd_pow 2 (by omega)
  have hU : (2 : Nat) ^ k ≤ U64 := Nat.le_of_dvd (by unfold U64; positivity) hdvd
  rw [Nat.mod_mod_of_dvd _ hdvd, Nat.add_mod_left, Nat.mod_mod_of_dvd _ hdvd]
  have h2 : a + (U64 - b) = (2 ^ k + a - b) + (U64 - 2 ^ k) := by omega
  have hdvd2 : (2 : Nat) ^ k ∣ (U64 - 2 ^ k) := Nat.dvd_sub' hdvd dvd_rfl
  rw [h2, Nat.add_mod, Nat.mod_eq_zero_of_dvd hdvd2, add_zero,
    Nat.mod_mod_of_dvd _ dvd_rfl]
  rfl

theorem floatRound_le_self_of_mod_eq_zero {n : Nat} (h : 2 ^ 24 < n)
    (hz : n % 2 ^ (Nat.log 2 n - 23) = 0) : floatRound n = n := by
  rw [floatRound_big_eq h, hz,
    if_neg (by have h5 : 0 < 2 ^ (Nat.log 2 n - 23 - 1) :=
      Nat.pos_pow_of_pos _ (by norm_num); omega)]
  have := Nat.div_add_mod n (2 ^ (Nat.log 2 n - 23))
  have hc : n / 2 ^ (Nat.log 2 n - 23) * 2 ^ (Nat.log 2 n - 23)
      = 2 ^ (Nat.log 2 n - 23) * (n / 2 ^ (Nat.log 2 n - 23)) := Nat.mul_comm _ _
  omega

/-! ### Correctness of compute_closest_capacity -/

theorem smearStep_testBit (x d i : Nat) :
    (smearStep x d).testBit i = (x.testBit i || x.testBit (i + d)) := by
  unfold smearStep
  rw [Nat.testBit_lor, Nat.testBit_shiftRight, Nat.add_comm d i]

theorem smear_window_step {x y d : Nat}
    (hy : ∀ i, y.testBit i = true ↔ ∃ t, t < d ∧ x.testBit (i + t) = true) :
    ∀ i, (smearStep y d).testBit i = true ↔
      ∃ t, t < 2 * d ∧ x.testBit (i + t) = true := by
  intro i
  rw [smearStep_testBit, Bool.or_eq_true, hy i, hy (i + d)]
  constructor
  · rintro (⟨t, ht, hb⟩ | ⟨t, ht, hb⟩)
    · exact ⟨t, by omega, hb⟩
    · refine ⟨d + t, by omega, ?_⟩
      rw [← Nat.add_assoc]
      exact hb
  · rintro ⟨t, ht, hb⟩
    rcases Nat.lt_or_ge t d with h1 | h1
    · exact Or.inl ⟨t, h1, hb⟩
    · refine Or.inr ⟨t - d, by omega, ?_⟩
      rw [show i + d + (t - d) = i + t by omega]
      exact hb

theorem smear_spec {x : Nat} (hx : x < 2 ^ 64) :
    ∀ i, (List.foldl smearStep x [1, 2, 4, 8, 16, 32]).testBit i = true ↔
      ∃ j, i ≤ j ∧ x.testBit j = true := by
  have h0 : ∀ i, x.testBit i = true ↔ ∃ t, t < 1 ∧ x.testBit (i + t) = true := by
    intro i
    constructor
    · intro hb
      exact ⟨0, by omega, by simpa using hb⟩
    · rintro ⟨t, ht, hb⟩
      have ht0 : t = 0 := by omega
      subst ht0
      simpa using hb
  have h1 := smear_window_step h0
  norm_num at h1
  have h2 := smear_window_step h1
  norm_num at h2
  have h3 := smear_window_step h2
  norm_num at h3
  have h4 := smear_window_step h3
  norm_num at h4
  have h5 := smear_window_step h4
  norm_num at h5
  have h6 := smear_window_step h5
  norm_num at h6
  intro i
  show (smearStep (smearStep (smearStep (smearStep (smearStep (smearStep x 1) 2) 4)
    8) 16) 32).testBit i = true ↔ _
  rw [h6 i]
  constructor
  · rintro ⟨t, ht, hb⟩
    exact ⟨i + t, by omega, hb⟩
  · rintro ⟨j, hij, hb⟩
    have hj : j < 64 := by
      by_contra hc
      push_neg at hc
      have hxx : x < 2 ^ j :=
        lt_of_lt_of_le hx (Nat.pow_le_pow_right (by norm_num) hc)
      rw [Nat.testBit_lt_two_pow hxx] at hb
      exact absurd hb (by simp)
    refine ⟨j - i, by omega, ?_⟩
    rw [show i + (j - i) = j by omega]
    exact hb

theorem testBit_log_self {x : Nat} (hx : x ≠ 0) :
    x.testBit (Nat.log 2 x) = true := by
  have h1 : 2 ^ Nat.log 2 x ≤ x := Nat.pow_log_le_self 2 hx
  have h2 : x < 2 ^ (Nat.log 2 x + 1) := Nat.lt_pow_succ_log_self (by norm_num) x
  rw [Nat.testBit_to_div_mod]
  have hdiv : x / 2 ^ Nat.log 2 x = 1 := by
    apply Nat.div_eq_of_lt_le
    · rw [one_mul]
      exact h1
    · rw [show (1 + 1) * 2 ^ Nat.log 2 x = 2 ^ (Nat.log 2 x + 1) by ring]
      exact h2
  rw [hdiv]
  rfl

theorem smear_eq_two_pow_sub_one {x : Nat} (hx : x < 2 ^ 64) :
    List.foldl smearStep x [1, 2, 4, 8, 16, 32] = 2 ^ bitlen x - 1 := by
  by_cases hx0 : x = 0
  · subst hx0
    simp [smearStep, bitlen]
  apply Nat.eq_of_testBit_eq
  intro i
  rw [Nat.testBit_two_pow_sub_one]
  have hb : bitlen x = Nat.log 2 x + 1 := by
    unfold bitlen
    rw [if_neg hx0]
  rcases Nat.lt_or_ge i (bitlen x) with hi | hi
  · rw [decide_eq_true hi, (smear_spec hx i)]
    exact ⟨Nat.log 2 x, by omega, testBit_log_self hx0⟩
  · rw [decide_eq_false (by omega)]
    cases hLHS : (List.foldl smearStep x [1, 2, 4, 8, 16, 32]).testBit i
    · rfl
    · obtain ⟨j, hij, hbj⟩ := (smear_spec hx i).mp hLHS
      have hxx : x < 2 ^ j := by
        have := Nat.lt_pow_succ_log_self (b := 2) (by norm_num) x
        exact lt_of_lt_of_le this (Nat.pow_le_pow_right (by norm_num) (by omega))
      rw [Nat.testBit_lt_two_pow hxx] at hbj
      exact absurd hbj (by simp)

theorem bitlen_le {m : Nat} (h : m < 2 ^ 63) : bitlen m ≤ 63 := by
  unfold bitlen
  split
  · omega
  · have hl := Nat.pow_log_le_self 2 (x := m) (by omega)
    by_contra hc
    push_neg at hc
    have h3 : (2 : Nat) ^ 63 ≤ 2 ^ Nat.log 2 m :=
      Nat.pow_le_pow_right (by norm_num) (by omega)
    omega

theorem compute_closest_capacity_eq {m : Nat} (h1 : 1 ≤ m) (h2 : m ≤ 2 ^ 63) :
    compute_closest_capacity m = some (2 ^ bitlen (m - 1)) := by
  unfold compute_closest_capacity
  rw [if_neg (by omega)]
  have hdec : (m + (U64 - 1)) % U64 = m - 1 := by
    unfold U64
    rw [show m + (2 ^ 64 - 1) = 2 ^ 64 + (m - 1) by omega, Nat.add_mod_left]
    exact Nat.mod_eq_of_lt (by omega)
  rw [hdec, smear_eq_two_pow_sub_one (by omega)]
  refine congrArg some ?_
  have hbound : (2 : Nat) ^ bitlen (m - 1) ≤ 2 ^ 63 :=
    Nat.pow_le_pow_right (by norm_num) (bitlen_le (by omega))
  have hp : (0 : Nat) < 2 ^ bitlen (m - 1) := by positivity
  rw [show 2 ^ bitlen (m - 1) - 1 + 1 = 2 ^ bitlen (m - 1) by omega]
  exact Nat.mod_eq_of_lt (by unfold U64; omega)

theorem le_two_pow_bitlen {m : Nat} (h1 : 1 ≤ m) : m ≤ 2 ^ bitlen (m - 1) := by
  unfold bitlen
  split
  · omega
  · have := Nat.lt_pow_succ_log_self (b := 2) (by norm_num) (m - 1)
    omega

theorem two_pow_bitlen_min {m j : Nat} (h1 : 1 ≤ m) (hj : m ≤ 2 ^ j) :
    2 ^ bitlen (m - 1) ≤ 2 ^ j := by
  apply Nat.pow_le_pow_right (by norm_num)
  unfold bitlen
  split
  · omega
  · by_contra hc
    push_neg at hc
    have h3 : (2 : Nat) ^ j ≤ 2 ^ Nat.log 2 (m - 1) :=
      Nat.pow_le_pow_right (by norm_num) (by omega)
    have h4 := Nat.pow_log_le_self 2 (x := m - 1) (by omega)
    omega

theorem compute_closest_capacity_overflow {m : Nat} (h : 2 ^ 63 < m) :
    compute_closest_capacity m = none := by
  unfold compute_closest_capacity
  rw [if_pos h]

theorem compute_closest_capacity_two_pow {k : Nat} (hk : k ≤ 63) :
    compute_closest_capacity (2 ^ k) = some (2 ^ k) := by
  rcases Nat.eq_zero_or_pos k with hk0 | hkpos
  · subst hk0
    rw [compute_closest_capacity_eq (by norm_num) (by norm_num)]
    norm_num [bitlen]
  · rw [compute_closest_capacity_eq (Nat.pos_pow_of_pos _ (by norm_num))
      (Nat.pow_le_pow_right (by norm_num) hk)]
    congr 2
    have hlog : Nat.log 2 (2 ^ k - 1) = k - 1 := by
      apply Nat.log_eq_of_pow_le_of_lt_pow
      · have h1 : (2 : Nat) ^ (k - 1) < 2 ^ k :=
          Nat.pow_lt_pow_right (by norm_num) (by omega)
        omega
      · have h2 : (2 : Nat) ^ (k - 1 + 1) = 2 ^ k := by
          congr 1
          omega
        have hp : (0 : Nat) < 2 ^ k := by positivity
        omega
    unfold bitlen
    have hp : (2 : Nat) ^ k ≠ 1 → 2 ^ k - 1 ≠ 0 := by
      have hp2 : (2 : Nat) ^ (1 : Nat) ≤ 2 ^ k := Nat.pow_le_pow_right (by norm_num) hkpos
      intro _
      omega
    rw [if_neg (hp (by
      have hp2 : (2 : Nat) ^ (1 : Nat) ≤ 2 ^ k := Nat.pow_le_pow_right (by norm_num) hkpos
      omega))]
    rw [hlog]
    omega

/-! ### Basic table facts -/

theorem countOcc_le (hm : hash_map) : countOcc hm ≤ bucket_count hm :=
  List.countP_le_length _

theorem size_le_cap {hasher : Nat → Nat} {hm : hash_map} (hwf : WF hasher hm) :
    hm.m_size ≤ bucket_count hm := by
  rw [hwf.size_eq]
  exact countOcc_le hm

theorem size_lt_cap {hasher : Nat → Nat} {hm : hash_map} (hwf : WF hasher hm) :
    hm.m_size < bucket_count hm := by
  have hle := size_le_cap hwf
  obtain ⟨k, hk, hcap⟩ := hwf.cap_pow
  rcases Nat.lt_or_ge hm.m_size (bucket_count hm) with h | h
  · exact h
  · have heq : hm.m_size = bucket_count hm := by omega
    have hload := hwf.load
    rw [heq, hcap, floatRound_two_pow] at hload
    have : (0 : Nat) < 2 ^ k := by positivity
    omega

theorem getD_eq_getElem {l : List (Nat × Nat)} {i : Nat} (h : i < l.length)
    (d : Nat × Nat) : l.getD i d = l[i] := by
  rw [List.getD_eq_getElem?_getD, List.getElem?_eq_getElem h]
  rfl

theorem exists_empty {hasher : Nat → Nat} {hm : hash_map} (hwf : WF hasher hm) :
    ∃ y, y < bucket_count hm ∧ keyAt hm y = hm.m_empty_key := by
  by_contra hc
  push_neg at hc
  have hall : ∀ a ∈ hm.m_buckets, (fun s => !(s.1 == hm.m_empty_key)) a = true := by
    intro a ha
    obtain ⟨i, hi, hia⟩ := List.mem_iff_getElem.mp ha
    have h1 : keyAt hm i ≠ hm.m_empty_key := hc i hi
    unfold keyAt slotAt at h1
    rw [getD_eq_getElem hi, hia] at h1
    simpa using h1
  have hcnt : countOcc hm = bucket_count hm := by
    unfold countOcc bucket_count
    exact List.countP_eq_length.mpr hall
  have hlt := size_lt_cap hwf
  rw [hwf.size_eq, hcnt] at hlt
  omega

/-! ### The find probe loop -/

theorem findLoop_found_keyAt {hm : hash_map} {key : Nat} :
    ∀ {fuel idx j : Nat}, findLoop hm key fuel idx = .found j → keyAt hm j = key := by
  intro fuel
  induction fuel with
  | zero => intro idx j h; exact absurd h (by simp [findLoop])
  | succ n ih =>
    intro idx j h
    rw [findLoop] at h
    split at h
    · rename_i hk
      cases h
      exact hk
    · split at h
      · exact absurd h (by simp)
      · exact ih h

theorem findLoop_found_lt {hm : hash_map} {key k : Nat}
    (hcap : bucket_count hm = 2 ^ k) (hk : k ≤ 63) :
    ∀ {fuel idx j : Nat}, idx < bucket_count hm →
      findLoop hm key fuel idx = .found j → j < bucket_count hm := by
  intro fuel
  induction fuel with
  | zero => intro idx j _ h; exact absurd h (by simp [findLoop])
  | succ n ih =>
    intro idx j hidx h
    rw [findLoop] at h
    split at h
    · cases h
      exact hidx
    · split at h
      · exact absurd h (by simp)
      · exact ih (probe_next_lt hcap hk) h

theorem findLoop_reaches {hm : hash_map} {key k : Nat}
    (hcap : bucket_count hm = 2 ^ k) (hk : k ≤ 63) {i : Nat}
    (hi : i < bucket_count hm) (htgt : keyAt hm i = key) :
    ∀ {fuel start : Nat}, start < bucket_count hm →
      (∀ j, j < bucket_count hm →
        cdist (bucket_count hm) start j < cdist (bucket_count hm) start i →
        keyAt hm j ≠ key ∧ keyAt hm j ≠ hm.m_empty_key) →
      cdist (bucket_count hm) start i < fuel →
      findLoop hm key fuel start = .found i := by
  intro fuel
  induction fuel with
  | zero => intro start _ _ hfuel; omega
  | succ n ih =>
    intro start hstart hbet hfuel
    have hcpos : 0 < bucket_count hm := by rw [hcap]; positivity
    by_cases heq : start = i
    · subst heq
      rw [findLoop, if_pos htgt]
    · have hdpos : cdist (bucket_count hm) start i ≠ 0 := by
        rw [Ne, cdist_eq_zero_iff hstart hi]
        exact heq
      obtain ⟨hne_key, hne_ek⟩ := hbet start hstart (by
        rw [cdist_self]
        omega)
      rw [findLoop, if_neg hne_key, if_neg hne_ek]
      have hstep := cdist_succ hstart hi heq
      have hpn : probe_next hm start = (start + 1) % bucket_count hm :=
        probe_next_eq hcap hk
      rw [hpn]
      apply ih (Nat.mod_lt _ hcpos)
      · intro j hj hjd
        have hsj : (start + 1) % bucket_count hm < bucket_count hm :=
          Nat.mod_lt _ hcpos
        by_cases hjs : j = start
        · subst hjs
          exfalso
          have h1 := cdist_lt ((j + 1) % bucket_count hm) i hcpos
          have h2 : cdist (bucket_count hm) ((j + 1) % bucket_count hm) j
              = bucket_count hm - 1 := cdist_succ_self hj (by omega)
          omega
        · have h2 := cdist_succ hstart hj (fun hx => hjs hx.symm)
          exact hbet j hj (by omega)
      · omega

theorem findLoop_misses {hm : hash_map} {key k : Nat}
    (hcap : bucket_count hm = 2 ^ k) (hk : k ≤ 63) {e : Nat}
    (he : e < bucket_count hm) (hee : keyAt hm e = hm.m_empty_key)
    (hkey : key ≠ hm.m_empty_key) :
    ∀ {fuel start : Nat}, start < bucket_count hm →
      (∀ j, j < bucket_count hm →
        cdist (bucket_count hm) start j < cdist (bucket_count hm) start e →
        keyAt hm j ≠ key ∧ keyAt hm j ≠ hm.m_empty_key) →
      cdist (bucket_count hm) start e < fuel →
      findLoop hm key fuel start = .absent := by
  intro fuel
  induction fuel with
  | zero => intro start _ _ hfuel; omega
  | succ n ih =>
    intro start hstart hbet hfuel
    have hcpos : 0 < bucket_count hm := by rw [hcap]; positivity
    by_cases heq : start = e
    · subst heq
      rw [findLoop, if_neg (by rw [hee]; exact fun hx => hkey hx.symm), if_pos hee]
    · have hdpos : cdist (bucket_count hm) start e ≠ 0 := by
        rw [Ne, cdist_eq_zero_iff hstart he]
        exact heq
      obtain ⟨hne_key, hne_ek⟩ := hbet start hstart (by
        rw [cdist_self]
        omega)
      rw [findLoop, if_neg hne_key, if_neg hne_ek]
      have hstep := cdist_succ hstart he heq
      rw [probe_next_eq hcap hk]
      apply ih (Nat.mod_lt _ hcpos)
      · intro j hj hjd
        by_cases hjs : j = start
        · subst hjs
          exfalso
          have h1 := cdist_lt ((j + 1) % bucket_count hm) e hcpos
          have h2 : cdist (bucket_count hm) ((j + 1) % bucket_count hm) j
              = bucket_count hm - 1 := cdist_succ_self hj (by omega)
          omega
        · have h2 := cdist_succ hstart hj (fun hx => hjs hx.symm)
          exact hbet j hj (by omega)
      · omega

theorem find_spec_found {hasher : Nat → Nat} {hm : hash_map} {key : Nat}
    (hwf : WF hasher hm) (hkey : key ≠ hm.m_empty_key) {i : Nat}
    (hi : i < bucket_count hm) (hki : keyAt hm i = key) :
    find_impl hasher hm key = .found i := by
  obtain ⟨k, hk, hcap⟩ := hwf.cap_pow
  have hk63 : k ≤ 63 := by omega
  have hcpos : 0 < bucket_count hm := by rw [hcap]; positivity
  have hhome : key_to_idx hasher hm (keyAt hm i) = key_to_idx hasher hm key := by
    rw [hki]
  unfold find_impl
  apply findLoop_reaches hcap hk63 hi hki (key_to_idx_lt hcap hk63)
  · intro j hj hjd
    have hjpath : j = (key_to_idx hasher hm key
        + cdist (bucket_count hm) (key_to_idx hasher hm key) j) % bucket_count hm :=
      (pos_add_cdist (key_to_idx_lt hcap hk63) hj).symm
    have hocc : occAt hm j := by
      rw [hjpath]
      have := hwf.contig i hi (by unfold occAt; rw [hki]; exact hkey)
        (cdist (bucket_count hm) (key_to_idx hasher hm key) j) (by rw [hhome]; exact hjd)
      rwa [hhome] at this
    refine ⟨?_, hocc⟩
    intro hjkey
    have hne : j ≠ i := by
      intro hji
      subst hji
      omega
    exact hwf.distinct j i hj hi hne (by unfold occAt; rw [hjkey]; exact hkey)
      (by unfold occAt; rw [hki]; exact hkey) (by rw [hjkey, hki])
  · exact cdist_lt _ _ hcpos

theorem find_spec_absent {hasher : Nat → Nat} {hm : hash_map} {key : Nat}
    (hwf : WF hasher hm) (hkey : key ≠ hm.m_empty_key)
    (habs : ∀ j, j < bucket_count hm → keyAt hm j ≠ key) :
    find_impl hasher hm key = .absent := by
  obtain ⟨k, hk, hcap⟩ := hwf.cap_pow
  have hk63 : k ≤ 63 := by omega
  have hcpos : 0 < bucket_count hm := by rw [hcap]; positivity
  have hhome : key_to_idx hasher hm key < bucket_count hm := key_to_idx_lt hcap hk63
  obtain ⟨y, hy, hye⟩ := exists_empty hwf
  have hex : ∃ d, keyAt hm ((key_to_idx hasher hm key + d) % bucket_count hm)
      = hm.m_empty_key := by
    refine ⟨cdist (bucket_count hm) (key_to_idx hasher hm key) y, ?_⟩
    rw [pos_add_cdist hhome hy]
    exact hye
  classical
  set d0 := Nat.find hex with hd0
  have hd0e := Nat.find_spec hex
  have hd0min : ∀ d, d < d0 →
      keyAt hm ((key_to_idx hasher hm key + d) % bucket_count hm)
        ≠ hm.m_empty_key := fun d hd => Nat.find_min hex hd
  have hd0lt : d0 < bucket_count hm := by
    have : d0 ≤ cdist (bucket_count hm) (key_to_idx hasher hm key) y :=
      Nat.find_min' hex (by rw [pos_add_cdist hhome hy]; exact hye)
    have h2 := cdist_lt (key_to_idx hasher hm key) y hcpos
    omega
  have hde : cdist (bucket_count hm) (key_to_idx hasher hm key)
      ((key_to_idx hasher hm key + d0) % bucket_count hm) = d0 :=
    cdist_add hhome hd0lt
  unfold find_impl
  apply findLoop_misses hcap hk63 (Nat.mod_lt _ hcpos) hd0e hkey hhome
  · intro j hj hjd
    rw [hde] at hjd
    have hjpath : j = (key_to_idx hasher hm key
        + cdist (bucket_count hm) (key_to_idx hasher hm key) j) % bucket_count hm :=
      (pos_add_cdist hhome hj).symm
    refine ⟨habs j hj, ?_⟩
    rw [hjpath]
    exact hd0min _ hjd
  · rw [hde]
    exact hd0lt

/-! ### The insert probe loop -/

theorem getD_set_self {l : List (Nat × Nat)} {i : Nat} (hi : i < l.length)
    (x d : Nat × Nat) : (l.set i x).getD i d = x := by
  rw [getD_eq_getElem (by rwa [List.length_set]) d]
  exact List.getElem_set_self _

theorem getD_set_ne {l : List (Nat × Nat)} {i j : Nat} (h : i ≠ j)
    (x d : Nat × Nat) : (l.set i x).getD j d = l.getD j d := by
  rcases Nat.lt_or_ge j l.length with hj | hj
  · rw [getD_eq_getElem (by rwa [List.length_set]) d, getD_eq_getElem hj d]
    exact List.getElem_set_ne h _
  · rw [List.getD_eq_default _ _ (by rwa [List.length_set]),
      List.getD_eq_default _ _ hj]

theorem key_to_idx_eq_of_cap {hasher : Nat → Nat} {hm hm2 : hash_map}
    (h : bucket_count hm2 = bucket_count hm) (key : Nat) :
    key_to_idx hasher hm2 key = key_to_idx hasher hm key := by
  unfold key_to_idx
  rw [h]

theorem probeInsert_found {hm : hash_map} {key val k : Nat}
    (hcap : bucket_count hm = 2 ^ k) (hk : k ≤ 63)
    (hkey : key ≠ hm.m_empty_key) {i : Nat}
    (hi : i < bucket_count hm) (hki : keyAt hm i = key) :
    ∀ {fuel start : Nat}, start < bucket_count hm →
      (∀ j, j < bucket_count hm →
        cdist (bucket_count hm) start j < cdist (bucket_count hm) start i →
        keyAt hm j ≠ key ∧ keyAt hm j ≠ hm.m_empty_key) →
      cdist (bucket_count hm) start i < fuel →
      probeInsert hm key val fuel start = some (hm, i, false) := by
  intro fuel
  induction fuel with
  | zero => intro start _ _ hfuel; omega
  | succ n ih =>
    intro start hstart hbet hfuel
    have hcpos : 0 < bucket_count hm := by rw [hcap]; positivity
    by_cases heq : start = i
    · subst heq
      rw [probeInsert, if_neg (by rw [hki]; exact hkey), if_pos hki]
    · have hdpos : cdist (bucket_count hm) start i ≠ 0 := by
        rw [Ne, cdist_eq_zero_iff hstart hi]
        exact heq
      obtain ⟨hne_key, hne_ek⟩ := hbet start hstart (by
        rw [cdist_self]
        omega)
      rw [probeInsert, if_neg hne_ek, if_neg hne_key]
      have hstep := cdist_succ hstart hi heq
      rw [probe_next_eq hcap hk]
      apply ih (Nat.mod_lt _ hcpos)
      · intro j hj hjd
        by_cases hjs : j = start
        · subst hjs
          exfalso
          have h1 := cdist_lt ((j + 1) % bucket_count hm) i hcpos
          have h2 : cdist (bucket_count hm) ((j + 1) % bucket_count hm) j
              = bucket_count hm - 1 := cdist_succ_self hj (by omega)
          omega
        · have h2 := cdist_succ hstart hj (fun hx => hjs hx.symm)
          exact hbet j hj (by omega)
      · omega

theorem probeInsert_new {hm : hash_map} {key val k : Nat}
    (hcap : bucket_count hm = 2 ^ k) (hk : k ≤ 63) {e : Nat}
    (he : e < bucket_count hm) (hee : keyAt hm e = hm.m_empty_key) :
    ∀ {fuel start : Nat}, start < bucket_count hm →
      (∀ j, j < bucket_count hm →
        cdist (bucket_count hm) start j < cdist (bucket_count hm) start e →
        keyAt hm j ≠ key ∧ keyAt hm j ≠ hm.m_empty_key) →
      cdist (bucket_count hm) start e < fuel →
      probeInsert hm key val fuel start =
        some ({ hm with m_buckets := hm.m_buckets.set e (key, val),
                        m_size := hm.m_size + 1 }, e, true) := by
  intro fuel
  induction fuel with
  | zero => intro start _ _ hfuel; omega
  | succ n ih =>
    intro start hstart hbet hfuel
    have hcpos : 0 < bucket_count hm := by rw [hcap]; positivity
    by_cases heq : start = e
    · subst heq
      rw [probeInsert, if_pos hee]
    · have hdpos : cdist (bucket_count hm) start e ≠ 0 := by
        rw [Ne, cdist_eq_zero_iff hstart he]
        exact heq
      obtain ⟨hne_key, hne_ek⟩ := hbet start hstart (by
        rw [cdist_self]
        omega)
      rw [probeInsert, if_neg hne_ek, if_neg hne_key]
      have hstep := cdist_succ hstart he heq
      rw [probe_next_eq hcap hk]
      apply ih (Nat.mod_lt _ hcpos)
      · intro j hj hjd
        by_cases hjs : j = start
        · subst hjs
          exfalso
          have h1 := cdist_lt ((j + 1) % bucket_count hm) e hcpos
          have h2 : cdist (bucket_count hm) ((j + 1) % bucket_count hm) j
              = bucket_count hm - 1 := cdist_succ_self hj (by omega)
          omega
        · have h2 := cdist_succ hstart hj (fun hx => hjs hx.symm)
          exact hbet j hj (by omega)
      · omega

theorem slotAt_of_set {hm hm2 : hash_map} {e : Nat} {x : Nat × Nat}
    (hb : hm2.m_buckets = hm.m_buckets.set e x)
    (hek : hm2.m_empty_key = hm.m_empty_key) (he : e < bucket_count hm) :
    slotAt hm2 e = x ∧ (∀ j, j ≠ e → slotAt hm2 j = slotAt hm j)
      ∧ bucket_count hm2 = bucket_count hm := by
  unfold slotAt bucket_count
  rw [hb, hek]
  exact ⟨getD_set_self he _ _, fun j hj => getD_set_ne (fun h => hj h.symm) _ _,
    List.length_set _ _ _⟩

theorem countOcc_of_set {hm hm2 : hash_map} {e : Nat} {x : Nat × Nat}
    (hb : hm2.m_buckets = hm.m_buckets.set e x)
    (hek : hm2.m_empty_key = hm.m_empty_key) (he : e < bucket_count hm) :
    countOcc hm2 = countOcc hm
      - (if keyAt hm e = hm.m_empty_key then 0 else 1)
      + (if x.1 = hm.m_empty_key then 0 else 1) := by
  unfold countOcc
  rw [hb, hek, List.countP_set _ _ _ _ he]
  have he2 : e < hm.m_buckets.length := he
  have hkey : keyAt hm e = (hm.m_buckets[e]).1 := by
    unfold keyAt slotAt
    rw [getD_eq_getElem he]
  rw [← hkey]
  by_cases h1 : keyAt hm e = hm.m_empty_key <;> by_cases h2 : x.1 = hm.m_empty_key <;>
    simp [h1, h2]

theorem first_empty {hasher : Nat → Nat} {hm : hash_map} (hwf : WF hasher hm)
    {start : Nat} (hstart : start < bucket_count hm) :
    ∃ e, e < bucket_count hm ∧ keyAt hm e = hm.m_empty_key ∧
      ∀ t, t < cdist (bucket_count hm) start e →
        occAt hm ((start + t) % bucket_count hm) := by
  obtain ⟨k, hk, hcap⟩ := hwf.cap_pow
  have hcpos : 0 < bucket_count hm := by rw [hcap]; positivity
  obtain ⟨y, hy, hye⟩ := exists_empty hwf
  have hex : ∃ d, keyAt hm ((start + d) % bucket_count hm) = hm.m_empty_key := by
    refine ⟨cdist (bucket_count hm) start y, ?_⟩
    rw [pos_add_cdist hstart hy]
    exact hye
  classical
  refine ⟨(start + Nat.find hex) % bucket_count hm, Nat.mod_lt _ hcpos,
    Nat.find_spec hex, ?_⟩
  have hd0lt : Nat.find hex < bucket_count hm := by
    have h1 : Nat.find hex ≤ cdist (bucket_count hm) start y :=
      Nat.find_min' hex (by rw [pos_add_cdist hstart hy]; exact hye)
    have h2 := cdist_lt start y hcpos
    omega
  intro t ht
  rw [cdist_add hstart hd0lt] at ht
  exact Nat.find_min hex ht

theorem probeInsert_present_spec {hasher : Nat → Nat} {hm : hash_map}
    {key val : Nat} (hwf : WF hasher hm) (hkey : key ≠ hm.m_empty_key)
    {i : Nat} (hi : i < bucket_count hm) (hki : keyAt hm i = key) :
    probeInsert hm key val (bucket_count hm) (key_to_idx hasher hm key)
      = some (hm, i, false) := by
  obtain ⟨k, hk, hcap⟩ := hwf.cap_pow
  have hk63 : k ≤ 63 := by omega
  have hcpos : 0 < bucket_count hm := by rw [hcap]; positivity
  have hhome : key_to_idx hasher hm (keyAt hm i) = key_to_idx hasher hm key := by
    rw [hki]
  apply probeInsert_found hcap hk63 hkey hi hki (key_to_idx_lt hcap hk63)
  · intro j hj hjd
    have hjpath : j = (key_to_idx hasher hm key
        + cdist (bucket_count hm) (key_to_idx hasher hm key) j) % bucket_count hm :=
      (pos_add_cdist (key_to_idx_lt hcap hk63) hj).symm
    have hocc : occAt hm j := by
      rw [hjpath]
      have := hwf.contig i hi (by unfold occAt; rw [hki]; exact hkey)
        (cdist (bucket_count hm) (key_to_idx hasher hm key) j) (by rw [hhome]; exact hjd)
      rwa [hhome] at this
    refine ⟨?_, hocc⟩
    intro hjkey
    have hne : j ≠ i := by
      intro hji
      subst hji
      omega
    exact hwf.distinct j i hj hi hne (by unfold occAt; rw [hjkey]; exact hkey)
      (by unfold occAt; rw [hki]; exact hkey) (by rw [hjkey, hki])
  · exact cdist_lt _ _ hcpos

theorem probeInsert_absent_spec {hasher : Nat → Nat} {hm : hash_map}
    {key val : Nat} (hwf : WF hasher hm) (hkey : key ≠ hm.m_empty_key)
    (habs : ∀ j, j < bucket_count hm → keyAt hm j ≠ key)
    (hload : 2 * floatRound (hm.m_size + 1) ≤ bucket_count hm) :
    ∃ e hm2,
      probeInsert hm key val (bucket_count hm) (key_to_idx hasher hm key)
        = some (hm2, e, true)
      ∧ WF hasher hm2
      ∧ e < bucket_count hm ∧ keyAt hm e = hm.m_empty_key
      ∧ hm2.m_buckets = hm.m_buckets.set e (key, val)
      ∧ bucket_count hm2 = bucket_count hm
      ∧ hm2.m_empty_key = hm.m_empty_key
      ∧ hm2.m_size = hm.m_size + 1
      ∧ (∀ k2 v2, mapsTo hm2 k2 v2 ↔
          (mapsTo hm k2 v2 ∨ (k2 = key ∧ v2 = val))) := by
  obtain ⟨k, hk, hcap⟩ := hwf.cap_pow
  have hk63 : k ≤ 63 := by omega
  have hcpos : 0 < bucket_count hm := by rw [hcap]; positivity
  have hhomelt : key_to_idx hasher hm key < bucket_count hm := key_to_idx_lt hcap hk63
  obtain ⟨e, he, hee, hpath⟩ := first_empty hwf hhomelt
  set hm2 : hash_map :=
    { hm with m_buckets := hm.m_buckets.set e (key, val),
              m_size := hm.m_size + 1 } with hhm2
  obtain ⟨hslotE, hslotNe, hcap2⟩ :=
    @slotAt_of_set hm hm2 e (key, val) rfl rfl he
  have hkeyE : keyAt hm2 e = key := by
    unfold keyAt
    rw [hslotE]
  have hkeyNe : ∀ j, j ≠ e → keyAt hm2 j = keyAt hm j := by
    intro j hj
    unfold keyAt
    rw [hslotNe j hj]
  have hek2 : hm2.m_empty_key = hm.m_empty_key := rfl
  have hk2i : ∀ key2, key_to_idx hasher hm2 key2 = key_to_idx hasher hm key2 :=
    key_to_idx_eq_of_cap hcap2
  have hoccE : occAt hm2 e := by
    unfold occAt
    rw [hkeyE, hek2]
    exact hkey
  have hocc2 : ∀ j, j < bucket_count hm → occAt hm j → occAt hm2 j := by
    intro j hj hocc
    by_cases hje : j = e
    · subst hje
      exact hoccE
    · unfold occAt at hocc ⊢
      rw [hkeyNe j hje, hek2]
      exact hocc
  have hrun : probeInsert hm key val (bucket_count hm) (key_to_idx hasher hm key)
      = some (hm2, e, true) := by
    apply probeInsert_new hcap hk63 he hee hhomelt
    · intro j hj hjd
      have hjpath : j = (key_to_idx hasher hm key
          + cdist (bucket_count hm) (key_to_idx hasher hm key) j) % bucket_count hm :=
        (pos_add_cdist hhomelt hj).symm
      refine ⟨habs j hj, ?_⟩
      have := hpath _ hjd
      rw [← hjpath] at this
      exact this
    · exact cdist_lt _ _ hcpos
  have hwf2 : WF hasher hm2 := by
    refine ⟨?_, ?_, ?_, ?_, ?_⟩
    · rw [hcap2]
      exact hwf.cap_pow
    · show hm.m_size + 1 = countOcc hm2
      rw [@countOcc_of_set hm hm2 e (key, val) rfl rfl he,
        if_pos hee, if_neg hkey]
      rw [← hwf.size_eq]
      omega
    · show 2 * floatRound (hm.m_size + 1) ≤ bucket_count hm2
      rw [hcap2]
      exact hload
    · intro i j hi hj hij hoi hoj
      rw [hcap2] at hi hj
      by_cases hie : i = e
      · subst hie
        rw [hkeyE, hkeyNe j (by omega)]
        intro hcon
        exact habs j hj hcon.symm
      · by_cases hje : j = e
        · subst hje
          rw [hkeyE, hkeyNe i hie]
          intro hcon
          exact habs i hi hcon
        · rw [hkeyNe i hie, hkeyNe j hje]
          apply hwf.distinct i j hi hj hij
          · unfold occAt at hoi ⊢
            rw [← hek2, ← hkeyNe i hie]
            exact hoi
          · unfold occAt at hoj ⊢
            rw [← hek2, ← hkeyNe j hje]
            exact hoj
    · intro p hp hocc t ht
      rw [hcap2] at hp ht ⊢
      rw [hk2i] at ht ⊢
      by_cases hpe : p = e
      · rw [hpe] at ht ⊢
        rw [hkeyE] at ht ⊢
        exact hocc2 _ (Nat.mod_lt _ hcpos) (hpath t ht)
      · rw [hkeyNe p hpe] at ht ⊢
        have hoccp : occAt hm p := by
          unfold occAt at hocc ⊢
          rw [← hek2, ← hkeyNe p hpe]
          exact hocc
        exact hocc2 _ (Nat.mod_lt _ hcpos) (hwf.contig p hp hoccp t ht)
  refine ⟨e, hm2, hrun, hwf2, he, hee, rfl, hcap2, hek2, rfl, ?_⟩
  intro k2 v2
  unfold mapsTo
  rw [hek2, hcap2]
  constructor
  · rintro ⟨hk2, i, hi, hslot⟩
    by_cases hie : i = e
    · subst hie
      rw [hslotE] at hslot
      right
      exact ⟨(congrArg Prod.fst hslot).symm, (congrArg Prod.snd hslot).symm⟩
    · left
      exact ⟨hk2, i, hi, by rw [← hslotNe i hie]; exact hslot⟩
  · rintro (⟨hk2, i, hi, hslot⟩ | ⟨hkk, hvv⟩)
    · have hie : i ≠ e := by
        intro hie
        subst hie
        unfold keyAt at hee
        rw [hslot] at hee
        exact hk2 hee
      exact ⟨hk2, i, hi, by rw [hslotNe i hie]; exact hslot⟩
    · subst hkk
      subst hvv
      exact ⟨hkey, e, he, hslotE⟩

/-! ### Fresh tables and rehashing -/

theorem emplace_impl_no_rehash {hasher : Nat → Nat} {f : Nat} {hm : hash_map}
    {key val : Nat} (h : ¬ needs_rehash hm) :
    emplace_impl hasher f hm key val
      = probeInsert hm key val (bucket_count hm) (key_to_idx hasher hm key) := by
  cases f <;> rw [emplace_impl] <;> rw [if_neg h]

theorem emplace_impl_rehash {hasher : Nat → Nat} {r : Nat} {hm : hash_map}
    {key val : Nat} (h : needs_rehash hm) :
    emplace_impl hasher (r + 1) hm key val
      = match rehashWith (fun hm2 key2 val2 => emplace_impl hasher r hm2 key2 val2)
          hm ((bucket_count hm <<< 2) % U64) with
        | none => none
        | some hm2 =>
          probeInsert hm2 key val (bucket_count hm2) (key_to_idx hasher hm2 key) := by
  rw [emplace_impl, if_pos h]

theorem mk_table_spec {hint ek : Nat} {hm : hash_map}
    (h : mk_table hint ek = some hm) (h1 : 1 ≤ hint) (hasher : Nat → Nat) :
    WF hasher hm ∧ hm.m_empty_key = ek ∧ hm.m_size = 0
      ∧ (∀ j, keyAt hm j = ek)
      ∧ hint ≤ bucket_count hm
      ∧ (∀ j2, hint ≤ 2 ^ j2 → bucket_count hm ≤ 2 ^ j2)
      ∧ bucket_count hm ≤ vector_max_size := by
  have hint63 : hint ≤ 2 ^ 63 := by
    by_contra hc
    push_neg at hc
    unfold mk_table at h
    rw [compute_closest_capacity_overflow hc] at h
    exact absurd h (by simp)
  unfold mk_table at h
  rw [compute_closest_capacity_eq h1 hint63] at h
  split at h
  case h_1 hnone =>
    exact absurd hnone (by simp)
  case h_2 count heq =>
    rw [Option.some.injEq] at heq
    subst heq
    split at h
    case isFalse =>
      exact absurd h (by simp)
    case isTrue hfit =>
    rw [Option.some.injEq] at h
    subst h
    have hcap : bucket_count (⟨ek, List.replicate (2 ^ bitlen (hint - 1)) (ek, 0), 0⟩
        : hash_map) = 2 ^ bitlen (hint - 1) := by
      unfold bucket_count
      exact List.length_replicate _ _
    have hkeyAt : ∀ j, keyAt (⟨ek, List.replicate (2 ^ bitlen (hint - 1)) (ek, 0), 0⟩
        : hash_map) j = ek := by
      intro j
      unfold keyAt slotAt
      rcases Nat.lt_or_ge j (2 ^ bitlen (hint - 1)) with hj | hj
      · rw [getD_eq_getElem (by rw [List.length_replicate]; exact hj)]
        rw [List.getElem_replicate]
      · rw [List.getD_eq_default _ _ (by rw [List.length_replicate]; exact hj)]
    have hnocc : ∀ j, ¬ occAt (⟨ek, List.replicate (2 ^ bitlen (hint - 1)) (ek, 0), 0⟩
        : hash_map) j := by
      intro j hocc
      exact hocc (hkeyAt j)
    have hk58 : bitlen (hint - 1) ≤ 58 := by
      by_contra hc
      push_neg at hc
      have h59 : (2 : Nat) ^ 59 ≤ 2 ^ bitlen (hint - 1) :=
        Nat.pow_le_pow_right (by norm_num) (by omega)
      unfold vector_max_size at hfit
      omega
    refine ⟨⟨⟨bitlen (hint - 1), hk58, hcap⟩, ?_, ?_, ?_, ?_⟩, rfl, rfl, hkeyAt, ?_, ?_, ?_⟩
    · show 0 = countOcc _
      unfold countOcc
      rw [eq_comm, List.countP_eq_zero]
      intro a ha
      rw [List.eq_of_mem_replicate ha]
      simp
    · show 2 * floatRound 0 ≤ bucket_count
        (⟨ek, List.replicate (2 ^ bitlen (hint - 1)) (ek, 0), 0⟩ : hash_map)
      rw [floatRound_exact (by norm_num), hcap]
      have : (0 : Nat) < 2 ^ bitlen (hint - 1) := by positivity
      omega
    · intro i j _ _ _ hocc
      exact absurd hocc (hnocc i)
    · intro p _ hocc
      exact absurd hocc (hnocc p)
    · rw [hcap]
      exact le_two_pow_bitlen h1
    · intro j2 hj2
      rw [hcap]
      exact two_pow_bitlen_min h1 hj2
    · rw [hcap]
      exact hfit

theorem countP_take_succ {l : List (Nat × Nat)} {j : Nat} (hj : j < l.length)
    (p : Nat × Nat → Bool) :
    List.countP p (l.take (j + 1))
      = List.countP p (l.take j) + (if p (l[j]) then 1 else 0) := by
  rw [List.take_succ, List.countP_append]
  congr 1
  rw [List.getElem?_eq_getElem hj]
  by_cases hp : p (l[j]) <;> simp [hp]

theorem countP_take_le (l : List (Nat × Nat)) (j : Nat) (p : Nat × Nat → Bool) :
    List.countP p (l.take j) ≤ List.countP p l := by
  conv_rhs => rw [← List.take_append_drop j l]
  rw [List.countP_append]
  omega

theorem rehashFold_go {hasher : Nat → Nat} (f : Nat) {hmOld : hash_map}
    (hwfOld : WF hasher hmOld) :
    ∀ m j acc, j + m = bucket_count hmOld →
      WF hasher acc →
      acc.m_empty_key = hmOld.m_empty_key →
      2 * floatRound hmOld.m_size ≤ bucket_count acc →
      acc.m_size = List.countP (fun s => !(s.1 == hmOld.m_empty_key))
        (hmOld.m_buckets.take j) →
      (∀ k2 v2, mapsTo acc k2 v2 ↔
        (k2 ≠ hmOld.m_empty_key ∧ ∃ i, i < j ∧ i < bucket_count hmOld
          ∧ slotAt hmOld i = (k2, v2))) →
      ∃ accF,
        rehashFold (fun hm2 key2 val2 => emplace_impl hasher f hm2 key2 val2)
          hmOld.m_empty_key (some acc) (hmOld.m_buckets.drop j) = some accF
        ∧ WF hasher accF ∧ accF.m_empty_key = hmOld.m_empty_key
        ∧ bucket_count accF = bucket_count acc
        ∧ accF.m_size = hmOld.m_size
        ∧ (∀ k2 v2, mapsTo accF k2 v2 ↔ mapsTo hmOld k2 v2) := by
  intro m
  induction m with
  | zero =>
    intro j acc hjm hwf hek hld hsz hmap
    have hj : j = bucket_count hmOld := by omega
    subst hj
    have hdrop : hmOld.m_buckets.drop (bucket_count hmOld) = [] :=
      List.drop_length _
    have htake : hmOld.m_buckets.take (bucket_count hmOld) = hmOld.m_buckets :=
      List.take_length _
    rw [hdrop]
    refine ⟨acc, rfl, hwf, hek, rfl, ?_, ?_⟩
    · rw [hsz, htake]
      show countOcc hmOld = hmOld.m_size
      exact hwfOld.size_eq.symm
    · intro k2 v2
      rw [hmap k2 v2]
      unfold mapsTo
      constructor
      · rintro ⟨hk2, i, _, hi, hslot⟩
        exact ⟨hk2, i, hi, hslot⟩
      · rintro ⟨hk2, i, hi, hslot⟩
        exact ⟨hk2, i, hi, hi, hslot⟩
  | succ n ih =>
    intro j acc hjm hwf hek hld hsz hmap
    have hjlt : j < bucket_count hmOld := by omega
    have hjlen : j < hmOld.m_buckets.length := hjlt
    have hdropeq : hmOld.m_buckets.drop j
        = hmOld.m_buckets[j] :: hmOld.m_buckets.drop (j + 1) :=
      List.drop_eq_getElem_cons hjlen
    have hslotj : slotAt hmOld j = hmOld.m_buckets[j] := getD_eq_getElem hjlen _
    rw [hdropeq, rehashFold]
    by_cases hocc : (hmOld.m_buckets[j]).1 = hmOld.m_empty_key
    · rw [if_pos hocc]
      apply ih (j + 1) acc (by omega) hwf hek hld
      · rw [hsz, countP_take_succ hjlen, if_neg (by simp [hocc])]
        omega
      · intro k2 v2
        rw [hmap k2 v2]
        constructor
        · rintro ⟨hk2, i, hij, hic, hslot⟩
          exact ⟨hk2, i, by omega, hic, hslot⟩
        · rintro ⟨hk2, i, hij, hic, hslot⟩
          refine ⟨hk2, i, ?_, hic, hslot⟩
          rcases Nat.lt_or_ge i j with h1 | h1
          · exact h1
          · exfalso
            have hij2 : i = j := by omega
            rw [hij2, hslotj] at hslot
            have hfst : (hmOld.m_buckets[j]).1 = k2 := congrArg Prod.fst hslot
            exact hk2 (hfst ▸ hocc)
    · rw [if_neg hocc]
      have hkey_ne : (hmOld.m_buckets[j]).1 ≠ hmOld.m_empty_key := hocc
      have hsz1 : List.countP (fun s => !(s.1 == hmOld.m_empty_key))
          (hmOld.m_buckets.take (j + 1)) = acc.m_size + 1 := by
        rw [countP_take_succ hjlen, if_pos (by simp [hocc]), hsz]
      have hstep_le : acc.m_size + 1 ≤ hmOld.m_size := by
        rw [hwfOld.size_eq]
        show _ ≤ countOcc hmOld
        rw [← hsz1]
        unfold countOcc
        exact countP_take_le _ _ _
      have hload2 : 2 * floatRound (acc.m_size + 1) ≤ bucket_count acc := by
        have hf := floatRound_mono hstep_le
        omega
      have hnr : ¬ needs_rehash acc := by
        unfold needs_rehash
        omega
      have habs : ∀ q, q < bucket_count acc →
          keyAt acc q ≠ (hmOld.m_buckets[j]).1 := by
        intro q hq hkq
        have hmq : mapsTo acc (hmOld.m_buckets[j]).1 (slotAt acc q).2 := by
          refine ⟨by rw [hek]; exact hkey_ne, q, hq, ?_⟩
          rw [← hkq]
          unfold keyAt
          exact Prod.mk.eta.symm
        obtain ⟨_, i, hij, hic, hsloti⟩ :=
          (hmap (hmOld.m_buckets[j]).1 (slotAt acc q).2).mp hmq
        have hkeyi : keyAt hmOld i = (hmOld.m_buckets[j]).1 := by
          unfold keyAt
          rw [hsloti]
        have hkeyj : keyAt hmOld j = (hmOld.m_buckets[j]).1 := by
          unfold keyAt
          rw [hslotj]
        exact hwfOld.distinct i j hic hjlt (by omega)
          (by unfold occAt; rw [hkeyi]; exact hkey_ne)
          (by unfold occAt; rw [hkeyj]; exact hkey_ne)
          (by rw [hkeyi, hkeyj])
      obtain ⟨e, acc2, hrun, hwf2, he, hee, hbuck2, hcap2, hek2, hsize2, hmaps2⟩ :=
        @probeInsert_absent_spec hasher acc (hmOld.m_buckets[j]).1
          (hmOld.m_buckets[j]).2 hwf
          (by rw [hek]; exact hkey_ne) habs hload2
      have hempl : emplace_impl hasher f acc (hmOld.m_buckets[j]).1
          (hmOld.m_buckets[j]).2 = some (acc2, e, true) := by
        rw [emplace_impl_no_rehash hnr]
        exact hrun
      rw [hempl]
      obtain ⟨accF, hfold, hwfF, hekF, hcapF, hsizeF, hmapsF⟩ :=
        ih (j + 1) acc2 (by omega) hwf2 (by rw [hek2]; exact hek)
          (by rw [hcap2]; exact hld)
          (by rw [hsize2, hsz1, hsz])
          (by
            intro k2 v2
            rw [hmaps2 k2 v2, hmap k2 v2]
            constructor
            · rintro (⟨hk2, i, hij, hic, hsloti⟩ | ⟨hkk, hvv⟩)
              · exact ⟨hk2, i, by omega, hic, hsloti⟩
              · subst hkk
                subst hvv
                refine ⟨hkey_ne, j, by omega, hjlt, ?_⟩
                rw [hslotj]
            · rintro ⟨hk2, i, hij1, hic, hsloti⟩
              rcases Nat.lt_or_ge i j with h1 | h1
              · exact Or.inl ⟨hk2, i, h1, hic, hsloti⟩
              · have hij2 : i = j := by omega
                right
                rw [hij2, hslotj] at hsloti
                exact ⟨(congrArg Prod.fst hsloti).symm,
                  (congrArg Prod.snd hsloti).symm⟩)
      refine ⟨accF, hfold, hwfF, hekF, by rw [hcapF, hcap2], hsizeF, hmapsF⟩

theorem rehashWith_res_spec {hasher : Nat → Nat} {f : Nat} {hmOld : hash_map}
    {count : Nat} {hmN : hash_map} (hwfOld : WF hasher hmOld)
    (h : rehashWith (fun hm2 key2 val2 => emplace_impl hasher f hm2 key2 val2)
      hmOld count = some hmN) :
    WF hasher hmN ∧ hmN.m_empty_key = hmOld.m_empty_key
      ∧ hmN.m_size = hmOld.m_size
      ∧ (∀ k2 v2, mapsTo hmN k2 v2 ↔ mapsTo hmOld k2 v2)
      ∧ compute_closest_capacity (max (max minimum_capacity count)
          (2 * floatRound hmOld.m_size)) = some (bucket_count hmN)
      ∧ 8 ≤ bucket_count hmN
      ∧ 2 * floatRound hmOld.m_size ≤ bucket_count hmN := by
  have hmc : minimum_capacity = 8 := rfl
  have h8 : 8 ≤ max (max minimum_capacity count) (2 * floatRound hmOld.m_size) :=
    le_trans (le_of_eq hmc.symm)
      (le_trans (le_max_left _ _) (le_max_left _ _))
  have hc2 : max (max minimum_capacity count) (2 * floatRound hmOld.m_size)
      ≤ 2 ^ 63 := by
    by_contra hc
    push_neg at hc
    unfold rehashWith at h
    rw [compute_closest_capacity_overflow hc] at h
    exact absurd h (by simp)
  have hc1 : 1 ≤ max (max minimum_capacity count) (2 * floatRound hmOld.m_size) := by
    omega
  unfold rehashWith at h
  rw [compute_closest_capacity_eq hc1 hc2] at h
  set count2 := max (max minimum_capacity count) (2 * floatRound hmOld.m_size)
    with hcount2
  set cap3 := 2 ^ bitlen (count2 - 1) with hcap3
  have hcap3min : count2 ≤ cap3 := le_two_pow_bitlen hc1
  have hfr : 2 * floatRound hmOld.m_size ≤ count2 := le_max_right _ _
  have hcap3_1 : 1 ≤ cap3 := by omega
  have h2 : (match mk_table cap3 hmOld.m_empty_key with
      | none => none
      | some fresh =>
        rehashFold (fun hm2 key2 val2 => emplace_impl hasher f hm2 key2 val2)
          hmOld.m_empty_key (some fresh) hmOld.m_buckets) = some hmN := h
  clear h
  cases hmk : mk_table cap3 hmOld.m_empty_key with
  | none =>
    rw [hmk] at h2
    exact absurd h2 (by simp)
  | some fresh =>
    rw [hmk] at h2
    obtain ⟨hwfF, hekF, hszF, hkeyF, hminF, hminF2, hfitF⟩ :=
      mk_table_spec hmk hcap3_1 hasher
    have hcapF : bucket_count fresh = cap3 := by
      have h1 := hminF2 (bitlen (count2 - 1)) (by rw [← hcap3])
      omega
    obtain ⟨accF, hfold, hwfA, hekA, hcapA, hsizeA, hmapsA⟩ :=
      rehashFold_go f hwfOld (bucket_count hmOld) 0 fresh (by omega) hwfF
        (by rw [hekF]) (by rw [hcapF]; omega)
        (by rw [hszF]; simp)
        (by
          intro k2 v2
          constructor
          · rintro ⟨hk2, i, hi, hslot⟩
            exfalso
            have hkk : keyAt fresh i = k2 := by
              unfold keyAt
              rw [hslot]
            rw [hkeyF i] at hkk
            exact hk2 (by rw [hekF]; exact hkk.symm)
          · rintro ⟨_, i, hi0, _⟩
            omega)
    have h3 : rehashFold (fun hm2 key2 val2 => emplace_impl hasher f hm2 key2 val2)
        hmOld.m_empty_key (some fresh) hmOld.m_buckets = some hmN := h2
    rw [List.drop_zero] at hfold
    rw [hfold] at h3
    rw [Option.some.injEq] at h3
    subst h3
    refine ⟨hwfA, by rw [hekA], hsizeA, hmapsA, ?_, ?_, ?_⟩
    · rw [hcapA, hcapF, hcap3]
      exact compute_closest_capacity_eq hc1 hc2
    · rw [hcapA, hcapF]
      omega
    · rw [hcapA, hcapF]
      omega

theorem ccc_le {m r : Nat} (h1 : 1 ≤ m)
    (h : compute_closest_capacity m = some r) :
    m ≤ r ∧ ∀ j, m ≤ 2 ^ j → r ≤ 2 ^ j := by
  have hm63 : m ≤ 2 ^ 63 := by
    by_contra hc
    push_neg at hc
    rw [compute_closest_capacity_overflow hc] at h
    exact absurd h (by simp)
  rw [compute_closest_capacity_eq h1 hm63, Option.some.injEq] at h
  subst h
  exact ⟨le_two_pow_bitlen h1, fun j hj => two_pow_bitlen_min h1 hj⟩

theorem keyAt_to_mapsTo {hm : hash_map} {q : Nat} (hq : q < bucket_count hm)
    (hocc : keyAt hm q ≠ hm.m_empty_key) :
    mapsTo hm (keyAt hm q) (slotAt hm q).2 := by
  refine ⟨hocc, q, hq, ?_⟩
  unfold keyAt
  exact Prod.mk.eta.symm

theorem emplace_impl_spec {hasher : Nat → Nat} {f : Nat} {hm : hash_map}
    {key val : Nat} {hm2 : hash_map} {i : Nat} {b : Bool}
    (hwf : WF hasher hm) (hkey : key ≠ hm.m_empty_key)
    (h : emplace_impl hasher f hm key val = some (hm2, i, b)) :
    WF hasher hm2 ∧ hm2.m_empty_key = hm.m_empty_key
      ∧ (b = true →
          hm2.m_size = hm.m_size + 1
          ∧ (∀ j2, j2 < bucket_count hm → keyAt hm j2 ≠ key)
          ∧ (∀ k2 v2, mapsTo hm2 k2 v2 ↔
              (mapsTo hm k2 v2 ∨ (k2 = key ∧ v2 = val)))
          ∧ slotAt hm2 i = (key, val) ∧ i < bucket_count hm2)
      ∧ (b = false →
          hm2.m_size = hm.m_size
          ∧ (∀ k2 v2, mapsTo hm2 k2 v2 ↔ mapsTo hm k2 v2)
          ∧ keyAt hm2 i = key ∧ i < bucket_count hm2) := by
  classical
  by_cases hnr : needs_rehash hm
  · cases f with
    | zero =>
      rw [emplace_impl, if_pos hnr] at h
      exact Option.noConfusion h
    | succ r =>
      rw [emplace_impl_rehash hnr] at h
      cases hre : rehashWith
          (fun hm2 key2 val2 => emplace_impl hasher r hm2 key2 val2) hm
          ((bucket_count hm <<< 2) % U64) with
      | none =>
        rw [hre] at h
        exact Option.noConfusion h
      | some hmR =>
        rw [hre] at h
        have h : probeInsert hmR key val (bucket_count hmR)
            (key_to_idx hasher hmR key) = some (hm2, i, b) := h
        obtain ⟨hwfR, hekR, hszR, hmapsR, hcccR, h8R, hfrR⟩ :=
          rehashWith_res_spec hwf hre
        by_cases hpres : ∃ j, j < bucket_count hm ∧ keyAt hm j = key
        · obtain ⟨j, hj, hkj⟩ := hpres
          have hmj : mapsTo hm key (slotAt hm j).2 := by
            have := keyAt_to_mapsTo hj (by rw [hkj]; exact hkey)
            rwa [hkj] at this
          obtain ⟨_, j2, hj2, hslot2⟩ := (hmapsR key (slotAt hm j).2).mpr hmj
          have hkj2 : keyAt hmR j2 = key := by
            unfold keyAt
            rw [hslot2]
          rw [probeInsert_present_spec hwfR (by rw [hekR]; exact hkey) hj2 hkj2,
            Option.some.injEq] at h
          have hhm2 : hmR = hm2 := congrArg Prod.fst h
          have hi : j2 = i := congrArg (fun x => x.2.1) h
          have hb : false = b := congrArg (fun x => x.2.2) h
          subst hhm2
          refine ⟨hwfR, by rw [hekR], ?_, ?_⟩
          · intro hb2
            rw [← hb] at hb2
            exact absurd hb2 (by simp)
          · intro _
            refine ⟨hszR, hmapsR, ?_, ?_⟩
            · rw [← hi]
              exact hkj2
            · rw [← hi]
              exact hj2
        · push_neg at hpres
          have habsR : ∀ q, q < bucket_count hmR → keyAt hmR q ≠ key := by
            intro q hq hkq
            have hoccq : keyAt hmR q ≠ hmR.m_empty_key := by
              rw [hkq, hekR]
              exact hkey
            have hmq := keyAt_to_mapsTo hq hoccq
            rw [hkq] at hmq
            obtain ⟨_, j3, hj3, hslot3⟩ := (hmapsR key (slotAt hmR q).2).mp hmq
            exact hpres j3 hj3 (by unfold keyAt; rw [hslot3])
          obtain ⟨k, hk, hcap⟩ := hwf.cap_pow
          have hcpos : 0 < bucket_count hm := by rw [hcap]; positivity
          have hsh : (bucket_count hm <<< 2) % U64 = 4 * bucket_count hm := by
            rw [Nat.shiftLeft_eq]
            rw [Nat.mod_eq_of_lt]
            · ring
            · unfold U64
              rw [hcap, show (2:Nat)^2 = 4 by norm_num]
              have : (2:Nat) ^ k ≤ 2 ^ 58 := Nat.pow_le_pow_right (by norm_num) hk
              omega
          have hcapRge : 4 * bucket_count hm ≤ bucket_count hmR := by
            have h1 : 1 ≤ max (max minimum_capacity ((bucket_count hm <<< 2) % U64))
                (2 * floatRound hm.m_size) := by
              have := le_max_left (max minimum_capacity
                ((bucket_count hm <<< 2) % U64)) (2 * floatRound hm.m_size)
              have h2 := le_max_left minimum_capacity ((bucket_count hm <<< 2) % U64)
              have hmc : minimum_capacity = 8 := rfl
              omega
            obtain ⟨hle, _⟩ := ccc_le h1 hcccR
            have h3 := le_max_right minimum_capacity ((bucket_count hm <<< 2) % U64)
            have h4 := le_max_left (max minimum_capacity
              ((bucket_count hm <<< 2) % U64)) (2 * floatRound hm.m_size)
            rw [hsh] at h3
            omega
          have hloadR : 2 * floatRound (hmR.m_size + 1) ≤ bucket_count hmR := by
            have hslt : hm.m_size < bucket_count hm := size_lt_cap hwf
            have hmono : floatRound (hm.m_size + 1) ≤ floatRound (bucket_count hm) :=
              floatRound_mono (by omega)
            have hpow : floatRound (bucket_count hm) = bucket_count hm := by
              rw [hcap]
              exact floatRound_two_pow k
            rw [hszR]
            omega
          obtain ⟨e, hm2b, hrun, hwf2, he, hee, hbuck2, hcap2, hek2, hsize2, hmaps2⟩ :=
            @probeInsert_absent_spec hasher hmR key val hwfR
              (by rw [hekR]; exact hkey) habsR hloadR
          rw [hrun, Option.some.injEq] at h
          have hhm2 : hm2b = hm2 := congrArg Prod.fst h
          have hi : e = i := congrArg (fun x => x.2.1) h
          have hb : true = b := congrArg (fun x => x.2.2) h
          subst hhm2
          refine ⟨hwf2, by rw [hek2, hekR], ?_, ?_⟩
          · intro _
            refine ⟨by rw [hsize2, hszR], hpres, ?_, ?_, ?_⟩
            · intro k2 v2
              rw [hmaps2 k2 v2, hmapsR k2 v2]
            · rw [← hi]
              obtain ⟨hsE, _, _⟩ := slotAt_of_set hbuck2 hek2 he
              exact hsE
            · rw [← hi, hcap2]
              exact he
          · intro hb2
            rw [← hb] at hb2
            exact absurd hb2 (by simp)
  · rw [emplace_impl_no_rehash hnr] at h
    have hload : 2 * floatRound (hm.m_size + 1) ≤ bucket_count hm := by
      unfold needs_rehash at hnr
      omega
    by_cases hpres : ∃ j, j < bucket_count hm ∧ keyAt hm j = key
    · obtain ⟨j, hj, hkj⟩ := hpres
      rw [probeInsert_present_spec hwf hkey hj hkj, Option.some.injEq] at h
      have hhm2 : hm = hm2 := congrArg Prod.fst h
      have hi : j = i := congrArg (fun x => x.2.1) h
      have hb : false = b := congrArg (fun x => x.2.2) h
      subst hhm2
      refine ⟨hwf, rfl, ?_, ?_⟩
      · intro hb2
        rw [← hb] at hb2
        exact absurd hb2 (by simp)
      · intro _
        exact ⟨rfl, fun k2 v2 => Iff.rfl, by rw [← hi]; exact hkj, by rw [← hi]; exact hj⟩
    · push_neg at hpres
      obtain ⟨e, hm2b, hrun, hwf2, he, hee, hbuck2, hcap2, hek2, hsize2, hmaps2⟩ :=
        @probeInsert_absent_spec hasher hm key val hwf hkey hpres hload
      rw [hrun, Option.some.injEq] at h
      have hhm2 : hm2b = hm2 := congrArg Prod.fst h
      have hi : e = i := congrArg (fun x => x.2.1) h
      have hb : true = b := congrArg (fun x => x.2.2) h
      subst hhm2
      refine ⟨hwf2, hek2, ?_, ?_⟩
      · intro _
        refine ⟨hsize2, hpres, hmaps2, ?_, ?_⟩
        · rw [← hi]
          obtain ⟨hsE, _, _⟩ := slotAt_of_set hbuck2 hek2 he
          exact hsE
        · rw [← hi, hcap2]
          exact he
      · intro hb2
        rw [← hb] at hb2
        exact absurd hb2 (by simp)

/-! ### The backward-shift erase loop -/

theorem countOcc_pos {hm : hash_map} {b : Nat} (hb : b < bucket_count hm)
    (hocc : keyAt hm b ≠ hm.m_empty_key) : 1 ≤ countOcc hm := by
  unfold countOcc
  have hb2 : b < hm.m_buckets.length := hb
  refine List.countP_pos_iff.mpr ⟨hm.m_buckets[b], List.getElem_mem hb2, ?_⟩
  unfold keyAt slotAt at hocc
  rw [getD_eq_getElem hb] at hocc
  simpa using hocc

theorem region_path {hasher : Nat → Nat} {c : Nat} (hcpos : 0 < c)
    {hm : hash_map} {ek b s : Nat} (hb : b < c) (hs : s < c)
    (hreg : ∀ j, j < c → 1 ≤ cdist c b j → cdist c b j < cdist c b s →
      keyAt hm j ≠ ek ∧ cdist c (key_to_idx hasher hm (keyAt hm j)) j
        ≤ cdist c (key_to_idx hasher hm (keyAt hm j)) b)
    {p : Nat} (hp : p < c) (hpb : p ≠ b)
    (hcase : cdist c b p < cdist c b s)
    (hhp : key_to_idx hasher hm (keyAt hm p) < c)
    {t : Nat} (ht : t < cdist c (key_to_idx hasher hm (keyAt hm p)) p) :
    1 ≤ cdist c b ((key_to_idx hasher hm (keyAt hm p) + t) % c)
      ∧ cdist c b ((key_to_idx hasher hm (keyAt hm p) + t) % c) < cdist c b s
      ∧ keyAt hm ((key_to_idx hasher hm (keyAt hm p) + t) % c) ≠ ek := by
  have hp1 : 1 ≤ cdist c b p := by
    rcases Nat.eq_zero_or_pos (cdist c b p) with h | h
    · exact absurd ((cdist_eq_zero_iff hb hp).mp h) (fun hx => hpb hx.symm)
    · exact h
  have hhome := (hreg p hp hp1 hcase).2
  have hstrict : cdist c (key_to_idx hasher hm (keyAt hm p)) p
      < cdist c (key_to_idx hasher hm (keyAt hm p)) b := by
    rcases Nat.lt_or_ge (cdist c (key_to_idx hasher hm (keyAt hm p)) p)
      (cdist c (key_to_idx hasher hm (keyAt hm p)) b) with h | h
    · exact h
    · have heq : cdist c (key_to_idx hasher hm (keyAt hm p)) p
          = cdist c (key_to_idx hasher hm (keyAt hm p)) b := by omega
      exact absurd (cdist_inj hhp hp hb heq) hpb
  have hq : (key_to_idx hasher hm (keyAt hm p) + t) % c < c := Nat.mod_lt _ hcpos
  have hcq : cdist c (key_to_idx hasher hm (keyAt hm p))
      ((key_to_idx hasher hm (keyAt hm p) + t) % c) = t :=
    cdist_add hhp (ht.trans (cdist_lt _ _ hcpos))
  obtain ⟨h1, h2⟩ := arc_avoids hhp hp hb hq hstrict (by omega)
  have hlt : cdist c b ((key_to_idx hasher hm (keyAt hm p) + t) % c)
      < cdist c b s := by omega
  exact ⟨h1, hlt, (hreg _ hq h1 hlt).1⟩

theorem eraseLoop_go {hasher : Nat → Nat} {c k ek : Nat}
    (hcpow : c = 2 ^ k) (hk : k ≤ 58) :
    ∀ fuel (hm : hash_map) (b s : Nat),
      bucket_count hm = c → hm.m_empty_key = ek →
      b < c → s < c → b ≠ s →
      hm.m_size = countOcc hm →
      2 * floatRound (hm.m_size - 1) ≤ c →
      keyAt hm b ≠ ek →
      (∀ p q, p < c → q < c → p ≠ q → p ≠ b → q ≠ b →
        keyAt hm p ≠ ek → keyAt hm q ≠ ek → keyAt hm p ≠ keyAt hm q) →
      (∀ j, j < c → 1 ≤ cdist c b j → cdist c b j < cdist c b s →
        keyAt hm j ≠ ek ∧
        cdist c (key_to_idx hasher hm (keyAt hm j)) j
          ≤ cdist c (key_to_idx hasher hm (keyAt hm j)) b) →
      (∀ p, p < c → keyAt hm p ≠ ek → cdist c b s ≤ cdist c b p →
        ∀ t, t < cdist c (key_to_idx hasher hm (keyAt hm p)) p →
          keyAt hm ((key_to_idx hasher hm (keyAt hm p) + t) % c) ≠ ek) →
      (∃ e2, e2 < c ∧ keyAt hm e2 = ek ∧ cdist c s e2 < fuel) →
      ∃ hmF, eraseLoop hasher fuel hm b s = some hmF
        ∧ WF hasher hmF ∧ hmF.m_empty_key = ek ∧ bucket_count hmF = c
        ∧ hmF.m_size = hm.m_size - 1
        ∧ (∀ k2 v2, mapsTo hmF k2 v2 ↔
            (k2 ≠ ek ∧ ∃ i2, i2 < c ∧ i2 ≠ b ∧ slotAt hm i2 = (k2, v2))) := by
  have hcpos : 0 < c := by rw [hcpow]; positivity
  have hk63 : k ≤ 63 := by omega
  intro fuel
  induction fuel with
  | zero =>
    intro hm b s hcap hek hb hs hbs hsz hld hkb hdis hreg hbey hwit
    obtain ⟨e2, he2, hke2, hfe2⟩ := hwit
    exact absurd hfe2 (Nat.not_lt_zero _)
  | succ n ih =>
    intro hm b s hcap hek hb hs hbs hsz hld hkb hdis hreg hbey hwit
    have hc2 : 2 ≤ c := by omega
    have hcappow : bucket_count hm = 2 ^ k := by rw [hcap, hcpow]
    have hbl : b < bucket_count hm := by rw [hcap]; exact hb
    obtain ⟨e2, he2, hke2, hfe2⟩ := hwit
    by_cases hse : keyAt hm s = ek
    · -- the scan hit an empty slot: vacate the hole and stop
      rw [eraseLoop, if_pos (show keyAt hm s = hm.m_empty_key by rw [hek]; exact hse)]
      have main : ∀ hmF : hash_map,
          hmF.m_buckets = hm.m_buckets.set b (hm.m_empty_key, (slotAt hm b).2) →
          hmF.m_empty_key = hm.m_empty_key →
          hmF.m_size = hm.m_size - 1 →
          WF hasher hmF ∧ hmF.m_empty_key = ek ∧ bucket_count hmF = c
            ∧ hmF.m_size = hm.m_size - 1
            ∧ (∀ k2 v2, mapsTo hmF k2 v2 ↔
                (k2 ≠ ek ∧ ∃ i2, i2 < c ∧ i2 ≠ b ∧ slotAt hm i2 = (k2, v2))) := by
        intro hmF hFb hFe hFs
        obtain ⟨hsb, hsne, hcapF⟩ := slotAt_of_set hFb hFe hbl
        have hcapFc : bucket_count hmF = c := by rw [hcapF]; exact hcap
        have hekF : hmF.m_empty_key = ek := hFe.trans hek
        have hkFb : keyAt hmF b = ek := by
          unfold keyAt
          rw [hsb]
          exact hek
        have hkFne : ∀ j, j ≠ b → keyAt hmF j = keyAt hm j :=
          fun j hj => congrArg Prod.fst (hsne j hj)
        have hkx : ∀ key2, key_to_idx hasher hmF key2 = key_to_idx hasher hm key2 :=
          key_to_idx_eq_of_cap hcapF
        have hcnt := countOcc_of_set hFb hFe hbl
        rw [if_neg (show ¬keyAt hm b = hm.m_empty_key by rw [hek]; exact hkb),
          if_pos (show (hm.m_empty_key, (slotAt hm b).2).1 = hm.m_empty_key from rfl)]
          at hcnt
        have hone := countOcc_pos hbl
          (show keyAt hm b ≠ hm.m_empty_key by rw [hek]; exact hkb)
        refine ⟨⟨⟨k, hk, by rw [hcapFc, hcpow]⟩, ?_, ?_, ?_, ?_⟩, hekF, hcapFc, hFs, ?_⟩
        · rw [hFs, hsz]
          omega
        · rw [hFs, hcapFc]
          exact hld
        · intro p q hp hq hpq hop hoq
          rw [hcapFc] at hp hq
          unfold occAt at hop hoq
          rw [hekF] at hop hoq
          have hpb : p ≠ b := fun h => hop (by rw [h, hkFb])
          have hqb : q ≠ b := fun h => hoq (by rw [h, hkFb])
          rw [hkFne p hpb] at hop
          rw [hkFne q hqb] at hoq
          rw [hkFne p hpb, hkFne q hqb]
          exact hdis p q hp hq hpq hpb hqb hop hoq
        · intro p hp hop t ht
          rw [hcapFc] at hp
          unfold occAt at hop ⊢
          rw [hekF] at hop ⊢
          have hpb : p ≠ b := fun h => hop (by rw [h, hkFb])
          rw [hkFne p hpb] at hop
          rw [hcapFc, hkFne p hpb, hkx] at ht
          rw [hcapFc, hkFne p hpb, hkx]
          have hhp : key_to_idx hasher hm (keyAt hm p) < c := by
            rw [← hcap]
            exact key_to_idx_lt hcappow hk63
          rcases Nat.lt_or_ge (cdist c b p) (cdist c b s) with hcase | hcase
          · obtain ⟨hq1, hq2, hqocc⟩ :=
              region_path hcpos hb hs hreg hp hpb hcase hhp ht
            have hqb : (key_to_idx hasher hm (keyAt hm p) + t) % c ≠ b := by
              intro h
              rw [h, cdist_self] at hq1
              omega
            rw [hkFne _ hqb]
            exact hqocc
          · have hqocc := hbey p hp hop hcase t ht
            have hqb : (key_to_idx hasher hm (keyAt hm p) + t) % c ≠ b := by
              intro hqbEq
              have hcq : cdist c (key_to_idx hasher hm (keyAt hm p))
                  ((key_to_idx hasher hm (keyAt hm p) + t) % c) = t :=
                cdist_add hhp (ht.trans (cdist_lt _ _ hcpos))
              rw [hqbEq] at hcq
              have hsplit := cdist_split hhp hb hp (by omega)
              have hse2 : (key_to_idx hasher hm (keyAt hm p)
                  + (t + cdist c b s)) % c = s := by
                rw [← Nat.add_assoc, ← Nat.mod_add_mod, hqbEq]
                exact pos_add_cdist hb hs
              rcases Nat.lt_or_ge (t + cdist c b s)
                (cdist c (key_to_idx hasher hm (keyAt hm p)) p) with h2 | h2
              · have h3 := hbey p hp hop hcase (t + cdist c b s) h2
                rw [hse2] at h3
                exact h3 hse
              · have hteq : t + cdist c b s
                    = cdist c (key_to_idx hasher hm (keyAt hm p)) p := by omega
                have hpp := pos_add_cdist hhp hp
                rw [← hteq] at hpp
                rw [hse2] at hpp
                rw [← hpp] at hop
                exact hop hse
            rw [hkFne _ hqb]
            exact hqocc
        · intro k2 v2
          unfold mapsTo
          rw [hekF, hcapFc]
          constructor
          · rintro ⟨hk2, i2, hi2, hsl2⟩
            have hib : i2 ≠ b := by
              intro h
              rw [h, hsb] at hsl2
              have h1 : hm.m_empty_key = k2 := congrArg Prod.fst hsl2
              exact hk2 (h1 ▸ hek)
            exact ⟨hk2, i2, hi2, hib, by rw [← hsne i2 hib]; exact hsl2⟩
          · rintro ⟨hk2, i2, hi2, hib, hsl2⟩
            exact ⟨hk2, i2, hi2, by rw [hsne i2 hib]; exact hsl2⟩
      exact ⟨_, rfl, main _ rfl rfl rfl⟩
    · -- the slot under scan is occupied
      have hideal : key_to_idx hasher hm (keyAt hm s) < c := by
        rw [← hcap]
        exact key_to_idx_lt hcappow hk63
      have hXi : key_to_idx hasher hm (keyAt hm s) < bucket_count hm := by
        rw [hcap]
        exact hideal
      have hdb : diff hm b (key_to_idx hasher hm (keyAt hm s))
          = cdist c (key_to_idx hasher hm (keyAt hm s)) b := by
        have h := @diff_eq_cdist hm k b (key_to_idx hasher hm (keyAt hm s))
          hcappow hk63 hXi
        rw [hcap] at h
        exact h
      have hds : diff hm s (key_to_idx hasher hm (keyAt hm s))
          = cdist c (key_to_idx hasher hm (keyAt hm s)) s := by
        have h := @diff_eq_cdist hm k s (key_to_idx hasher hm (keyAt hm s))
          hcappow hk63 hXi
        rw [hcap] at h
        exact h
      have hpn2 : probe_next hm s = (s + 1) % c := by
        rw [probe_next_eq hcappow hk63, hcap]
      have hss1 : cdist c s ((s + 1) % c) = 1 := cdist_add hs (by omega)
      have he2b : e2 ≠ b := fun h => hkb (h ▸ hke2)
      have he2s : e2 ≠ s := fun h => hse (h ▸ hke2)
      by_cases hmv : cdist c (key_to_idx hasher hm (keyAt hm s)) b
          < cdist c (key_to_idx hasher hm (keyAt hm s)) s
      · -- the hole is closer to the entry's home than its slot: shift backward
        rw [eraseLoop,
          if_neg (show ¬keyAt hm s = hm.m_empty_key by rw [hek]; exact hse),
          if_pos (show diff hm b (key_to_idx hasher hm (keyAt hm s))
              < diff hm s (key_to_idx hasher hm (keyAt hm s)) by
            rw [hdb, hds]; exact hmv), hpn2]
        have main : ∀ hm2 : hash_map,
            hm2.m_buckets = hm.m_buckets.set b (slotAt hm s) →
            hm2.m_empty_key = hm.m_empty_key →
            hm2.m_size = hm.m_size →
            ∃ hmF, eraseLoop hasher n hm2 s ((s + 1) % c) = some hmF
              ∧ WF hasher hmF ∧ hmF.m_empty_key = ek ∧ bucket_count hmF = c
              ∧ hmF.m_size = hm.m_size - 1
              ∧ (∀ k2 v2, mapsTo hmF k2 v2 ↔
                  (k2 ≠ ek ∧ ∃ i2, i2 < c ∧ i2 ≠ b ∧ slotAt hm i2 = (k2, v2))) := by
          intro hm2 h2b h2e h2s
          obtain ⟨hs2b, hs2ne, hcap2⟩ := slotAt_of_set h2b h2e hbl
          have hcap2c : bucket_count hm2 = c := by rw [hcap2]; exact hcap
          have hek2 : hm2.m_empty_key = ek := h2e.trans hek
          have hk2b : keyAt hm2 b = keyAt hm s := congrArg Prod.fst hs2b
          have hk2ne : ∀ j, j ≠ b → keyAt hm2 j = keyAt hm j :=
            fun j hj => congrArg Prod.fst (hs2ne j hj)
          have hkx2 : ∀ key2, key_to_idx hasher hm2 key2 = key_to_idx hasher hm key2 :=
            key_to_idx_eq_of_cap hcap2
          have hocc2 : ∀ j, keyAt hm2 j ≠ ek ↔ keyAt hm j ≠ ek := by
            intro j
            by_cases hjb : j = b
            · rw [hjb, hk2b]
              exact ⟨fun _ => hkb, fun _ => hse⟩
            · rw [hk2ne j hjb]
          have hcnt := countOcc_of_set h2b h2e hbl
          rw [if_neg (show ¬keyAt hm b = hm.m_empty_key by rw [hek]; exact hkb),
            if_neg (show ¬(slotAt hm s).1 = hm.m_empty_key by rw [hek]; exact hse)]
            at hcnt
          have hone := countOcc_pos hbl
            (show keyAt hm b ≠ hm.m_empty_key by rw [hek]; exact hkb)
          have hcnteq : countOcc hm2 = countOcc hm := by omega
          have hss2 : s ≠ (s + 1) % c := by
            intro h
            rw [← h, cdist_self] at hss1
            omega
          have hsz2 : hm2.m_size = countOcc hm2 := by
            rw [h2s, hcnteq]
            exact hsz
          have hld2 : 2 * floatRound (hm2.m_size - 1) ≤ c := by
            rw [h2s]
            exact hld
          have hole2 : keyAt hm2 s ≠ ek := by
            rw [hk2ne s (Ne.symm hbs)]
            exact hse
          have hdis2 : ∀ p q, p < c → q < c → p ≠ q → p ≠ s → q ≠ s →
              keyAt hm2 p ≠ ek → keyAt hm2 q ≠ ek → keyAt hm2 p ≠ keyAt hm2 q := by
            intro p q hp hq hpq hps hqs hop hoq
            by_cases hpb : p = b
            · rw [hpb, hk2b] at hop ⊢
              have hqb : q ≠ b := fun h => hpq (hpb.trans h.symm)
              rw [hk2ne q hqb] at hoq ⊢
              exact hdis s q hs hq (Ne.symm hqs) (Ne.symm hbs) hqb hse hoq
            · by_cases hqb : q = b
              · rw [hqb, hk2b] at hoq ⊢
                rw [hk2ne p hpb] at hop ⊢
                exact hdis p s hp hs hps hpb (Ne.symm hbs) hop hse
              · rw [hk2ne p hpb] at hop ⊢
                rw [hk2ne q hqb] at hoq ⊢
                exact hdis p q hp hq hpq hpb hqb hop hoq
          have hreg2 : ∀ j, j < c → 1 ≤ cdist c s j →
              cdist c s j < cdist c s ((s + 1) % c) →
              keyAt hm2 j ≠ ek ∧ cdist c (key_to_idx hasher hm2 (keyAt hm2 j)) j
                ≤ cdist c (key_to_idx hasher hm2 (keyAt hm2 j)) s := by
            intro j hj h1 h2
            rw [hss1] at h2
            exact absurd h1 (by omega)
          have hbey2 : ∀ p, p < c → keyAt hm2 p ≠ ek →
              cdist c s ((s + 1) % c) ≤ cdist c s p →
              ∀ t, t < cdist c (key_to_idx hasher hm2 (keyAt hm2 p)) p →
                keyAt hm2 ((key_to_idx hasher hm2 (keyAt hm2 p) + t) % c) ≠ ek := by
            intro p hp hop hd t ht
            rw [hkx2] at ht ⊢
            rw [hocc2]
            by_cases hpb : p = b
            · rw [hpb, hk2b] at ht ⊢
              exact hbey s hs hse (le_refl _) t (by omega)
            · rw [hk2ne p hpb] at ht ⊢
              have hop2 : keyAt hm p ≠ ek := (hocc2 p).mp hop
              have hhp : key_to_idx hasher hm (keyAt hm p) < c := by
                rw [← hcap]
                exact key_to_idx_lt hcappow hk63
              rcases Nat.lt_or_ge (cdist c b p) (cdist c b s) with hcase | hcase
              · exact (region_path hcpos hb hs hreg hp hpb hcase hhp ht).2.2
              · exact hbey p hp hop2 hcase t ht
          have hwit2 : ∃ e3, e3 < c ∧ keyAt hm2 e3 = ek
              ∧ cdist c ((s + 1) % c) e3 < n := by
            refine ⟨e2, he2, ?_, ?_⟩
            · rw [hk2ne e2 he2b]
              exact hke2
            · have h := cdist_succ hs he2 (Ne.symm he2s)
              omega
          obtain ⟨hmF, hrun, hwfF, hekF, hcapF, hszF, hmapF⟩ :=
            ih hm2 s ((s + 1) % c) hcap2c hek2 hs (Nat.mod_lt _ hcpos) hss2 hsz2 hld2
              hole2 hdis2 hreg2 hbey2 hwit2
          refine ⟨hmF, hrun, hwfF, hekF, hcapF, ?_, ?_⟩
          · rw [hszF, h2s]
          · intro k2 v2
            rw [hmapF k2 v2]
            constructor
            · rintro ⟨hk2, i2, hi2, his, hsl2⟩
              by_cases hib : i2 = b
              · refine ⟨hk2, s, hs, Ne.symm hbs, ?_⟩
                rw [← hs2b, ← hib]
                exact hsl2
              · exact ⟨hk2, i2, hi2, hib, by rw [← hs2ne i2 hib]; exact hsl2⟩
            · rintro ⟨hk2, i2, hi2, hib, hsl2⟩
              by_cases his : i2 = s
              · refine ⟨hk2, b, hb, hbs, ?_⟩
                rw [hs2b, ← his]
                exact hsl2
              · exact ⟨hk2, i2, hi2, his, by rw [hs2ne i2 hib]; exact hsl2⟩
        exact main _ rfl rfl rfl
      · -- the entry is at least as close to its home: scan onward
        rw [eraseLoop,
          if_neg (show ¬keyAt hm s = hm.m_empty_key by rw [hek]; exact hse),
          if_neg (show ¬(diff hm b (key_to_idx hasher hm (keyAt hm s))
              < diff hm s (key_to_idx hasher hm (keyAt hm s))) by
            rw [hdb, hds]; exact hmv), hpn2]
        have hbne2 : (s + 1) % c ≠ b := by
          intro hcontra
          have h1 : cdist c b s = c - 1 := by
            rw [← hcontra]
            exact cdist_succ_self hs hc2
          have h2 : cdist c b e2 ≠ 0 :=
            fun h => he2b ((cdist_eq_zero_iff hb he2).mp h).symm
          have h3 := cdist_lt b e2 hcpos
          rcases Nat.lt_or_ge (cdist c b e2) (cdist c b s) with h4 | h4
          · exact (hreg e2 he2 (by omega) h4).1 hke2
          · have h5 : e2 = s := cdist_inj hb he2 hs (by omega)
            exact he2s h5
        have hsucc : cdist c b ((s + 1) % c) = cdist c b s + 1 :=
          cdist_succ_right hb hs hbne2
        have hreg2 : ∀ j, j < c → 1 ≤ cdist c b j →
            cdist c b j < cdist c b ((s + 1) % c) →
            keyAt hm j ≠ ek ∧ cdist c (key_to_idx hasher hm (keyAt hm j)) j
              ≤ cdist c (key_to_idx hasher hm (keyAt hm j)) b := by
          intro j hj h1 h2
          rw [hsucc] at h2
          rcases Nat.lt_or_ge (cdist c b j) (cdist c b s) with hlt | hge
          · exact hreg j hj h1 hlt
          · have hjeq : j = s := cdist_inj hb hj hs (by omega)
            rw [hjeq]
            exact ⟨hse, by omega⟩
        have hbey2 : ∀ p, p < c → keyAt hm p ≠ ek →
            cdist c b ((s + 1) % c) ≤ cdist c b p →
            ∀ t, t < cdist c (key_to_idx hasher hm (keyAt hm p)) p →
              keyAt hm ((key_to_idx hasher hm (keyAt hm p) + t) % c) ≠ ek := by
          intro p hp hop hd t ht
          exact hbey p hp hop (by omega) t ht
        have hwit2 : ∃ e3, e3 < c ∧ keyAt hm e3 = ek
            ∧ cdist c ((s + 1) % c) e3 < n := by
          refine ⟨e2, he2, hke2, ?_⟩
          have h := cdist_succ hs he2 (Ne.symm he2s)
          omega
        exact ih hm b ((s + 1) % c) hcap hek hb (Nat.mod_lt _ hcpos) (Ne.symm hbne2)
          hsz hld hkb hdis hreg2 hbey2 hwit2

theorem erase_impl_spec_absent {hasher : Nat → Nat} {hm : hash_map} {key : Nat}
    (hwf : WF hasher hm) (hkey : key ≠ hm.m_empty_key)
    (habs : ∀ j, j < bucket_count hm → keyAt hm j ≠ key) :
    erase_impl hasher hm key = some (0, hm) := by
  unfold erase_impl
  rw [find_spec_absent hwf hkey habs]

theorem erase_impl_spec_present {hasher : Nat → Nat} {hm : hash_map} {key : Nat}
    (hwf : WF hasher hm) (hkey : key ≠ hm.m_empty_key) {i : Nat}
    (hi : i < bucket_count hm) (hki : keyAt hm i = key) :
    ∃ hmF, erase_impl hasher hm key = some (1, hmF)
      ∧ WF hasher hmF ∧ hmF.m_empty_key = hm.m_empty_key
      ∧ bucket_count hmF = bucket_count hm
      ∧ hmF.m_size = hm.m_size - 1
      ∧ (∀ k2 v2, mapsTo hmF k2 v2 ↔ (mapsTo hm k2 v2 ∧ k2 ≠ key)) := by
  obtain ⟨k, hk, hcap⟩ := hwf.cap_pow
  have hk63 : k ≤ 63 := by omega
  have hcpos : 0 < bucket_count hm := by rw [hcap]; positivity
  have hone : 1 ≤ countOcc hm := countOcc_pos hi (by rw [hki]; exact hkey)
  have hsz1 : 1 ≤ hm.m_size := by rw [hwf.size_eq]; exact hone
  have hfr : 1 ≤ floatRound hm.m_size := floatRound_pos hsz1
  have hc2 : 2 ≤ bucket_count hm := by
    have := hwf.load
    omega
  have hbs : i ≠ (i + 1) % bucket_count hm := by
    intro h
    have h1 : cdist (bucket_count hm) i ((i + 1) % bucket_count hm) = 1 :=
      cdist_add hi (by omega)
    rw [← h, cdist_self] at h1
    omega
  have hld : 2 * floatRound (hm.m_size - 1) ≤ bucket_count hm := by
    have h1 := floatRound_mono (show hm.m_size - 1 ≤ hm.m_size by omega)
    have h2 := hwf.load
    omega
  have hreg0 : ∀ j, j < bucket_count hm → 1 ≤ cdist (bucket_count hm) i j →
      cdist (bucket_count hm) i j
        < cdist (bucket_count hm) i ((i + 1) % bucket_count hm) →
      keyAt hm j ≠ hm.m_empty_key ∧
      cdist (bucket_count hm) (key_to_idx hasher hm (keyAt hm j)) j
        ≤ cdist (bucket_count hm) (key_to_idx hasher hm (keyAt hm j)) i := by
    intro j hj h1 h2
    rw [cdist_add hi (by omega)] at h2
    exact absurd h1 (by omega)
  have hbey0 : ∀ p, p < bucket_count hm → keyAt hm p ≠ hm.m_empty_key →
      cdist (bucket_count hm) i ((i + 1) % bucket_count hm)
        ≤ cdist (bucket_count hm) i p →
      ∀ t, t < cdist (bucket_count hm) (key_to_idx hasher hm (keyAt hm p)) p →
        keyAt hm ((key_to_idx hasher hm (keyAt hm p) + t) % bucket_count hm)
          ≠ hm.m_empty_key :=
    fun p hp hop _ t ht => hwf.contig p hp hop t ht
  have hwit0 : ∃ e2, e2 < bucket_count hm ∧ keyAt hm e2 = hm.m_empty_key
      ∧ cdist (bucket_count hm) ((i + 1) % bucket_count hm) e2 < bucket_count hm := by
    obtain ⟨y, hy, hye⟩ := exists_empty hwf
    exact ⟨y, hy, hye, cdist_lt _ _ hcpos⟩
  obtain ⟨hmF, hrun, hwfF, hekF, hcapF, hszF, hmapF⟩ :=
    eraseLoop_go hcap hk (bucket_count hm) hm i ((i + 1) % bucket_count hm)
      rfl rfl hi (Nat.mod_lt _ hcpos) hbs hwf.size_eq hld
      (by rw [hki]; exact hkey) (fun p q hp hq hpq _ _ hop hoq =>
        hwf.distinct p q hp hq hpq hop hoq) hreg0 hbey0 hwit0
  have hfind := find_spec_found hwf hkey hi hki
  have hrun2 : erase_impl hasher hm key = some (1, hmF) := by
    unfold erase_impl
    rw [hfind]
    show (match eraseLoop hasher (bucket_count hm) hm i (probe_next hm i) with
      | some hm2 => some (1, hm2)
      | none => none) = some (1, hmF)
    rw [probe_next_eq hcap hk63, hrun]
  refine ⟨hmF, hrun2, hwfF, hekF, hcapF, hszF, ?_⟩
  intro k2 v2
  rw [hmapF k2 v2]
  constructor
  · rintro ⟨hk2, i2, hi2, hib, hsl⟩
    have hki2 : keyAt hm i2 = k2 := by
      unfold keyAt
      rw [hsl]
    refine ⟨⟨hk2, i2, hi2, hsl⟩, ?_⟩
    intro hkk
    exact hwf.distinct i2 i hi2 hi hib
      (by unfold occAt; rw [hki2]; exact hk2)
      (by unfold occAt; rw [hki]; exact hkey)
      (by rw [hki2, hki, hkk])
  · rintro ⟨⟨hk2, i2, hi2, hsl⟩, hkk⟩
    have hki2 : keyAt hm i2 = k2 := by
      unfold keyAt
      rw [hsl]
    refine ⟨hk2, i2, hi2, ?_, hsl⟩
    intro hib
    rw [hib, hki] at hki2
    exact hkk hki2.symm

theorem clear_spec {hasher : Nat → Nat} {hm : hash_map} (hwf : WF hasher hm) :
    WF hasher (clear hm) ∧ (clear hm).m_empty_key = hm.m_empty_key
      ∧ bucket_count (clear hm) = bucket_count hm ∧ (clear hm).m_size = 0 := by
  have hcap : bucket_count (clear hm) = bucket_count hm := by
    show (hm.m_buckets.map fun b =>
        if b.1 ≠ hm.m_empty_key then (hm.m_empty_key, b.2) else b).length
      = hm.m_buckets.length
    rw [List.length_map]
  have hkey : ∀ j, keyAt (clear hm) j = hm.m_empty_key := by
    intro j
    show ((hm.m_buckets.map fun b =>
        if b.1 ≠ hm.m_empty_key then (hm.m_empty_key, b.2) else b).getD j
        (hm.m_empty_key, 0)).1 = hm.m_empty_key
    rcases Nat.lt_or_ge j hm.m_buckets.length with hj | hj
    · rw [getD_eq_getElem (by rw [List.length_map]; exact hj)]
      rw [List.getElem_map]
      by_cases hb : (hm.m_buckets[j]).1 ≠ hm.m_empty_key
      · rw [if_pos hb]
      · rw [if_neg hb]
        push_neg at hb
        exact hb
    · rw [List.getD_eq_default _ _ (by rw [List.length_map]; exact hj)]
  have hcnt : countOcc (clear hm) = 0 := by
    show List.countP (fun s => !(s.1 == hm.m_empty_key))
        (hm.m_buckets.map fun b =>
          if b.1 ≠ hm.m_empty_key then (hm.m_empty_key, b.2) else b) = 0
    rw [List.countP_eq_zero]
    intro a ha
    rw [List.mem_map] at ha
    obtain ⟨b, _, hb⟩ := ha
    by_cases hbe : b.1 ≠ hm.m_empty_key
    · rw [if_pos hbe] at hb
      rw [← hb]
      simp
    · rw [if_neg hbe] at hb
      push_neg at hbe
      rw [← hb]
      simp [hbe]
  refine ⟨⟨?_, ?_, ?_, ?_, ?_⟩, rfl, hcap, rfl⟩
  · rw [hcap]
    exact hwf.cap_pow
  · show 0 = countOcc (clear hm)
    rw [hcnt]
  · show 2 * floatRound 0 ≤ bucket_count (clear hm)
    rw [floatRound_exact (by norm_num)]
    omega
  · intro i j _ _ _ hocc _
    exact absurd (hkey i) hocc
  · intro p _ hocc
    exact absurd (hkey p) hocc

theorem op_index_inv {hasher : Nat → Nat} {hm : hash_map} {key : Nat}
    {hm2 : hash_map} {i : Nat} (h : op_index hasher hm key = some (hm2, i)) :
    ∃ b, emplace_impl hasher 1 hm key 0 = some (hm2, i, b) := by
  unfold op_index at h
  cases hemp : emplace_impl hasher 1 hm key 0 with
  | none =>
    rw [hemp] at h
    exact absurd h (by simp)
  | some r =>
    obtain ⟨hm3, idx, b2⟩ := r
    rw [hemp] at h
    have h2 : (some (hm3, idx) : Option (hash_map × Nat)) = some (hm2, i) := h
    rw [Option.some.injEq] at h2
    have hh : hm3 = hm2 := congrArg Prod.fst h2
    have hi : idx = i := congrArg Prod.snd h2
    exact ⟨b2, by rw [hh, hi]⟩

theorem reach_WF {hasher : Nat → Nat} {hm : hash_map} (h : Reach hasher hm) :
    WF hasher hm := by
  induction h with
  | ctor hint ek hm h1 hmk => exact (mk_table_spec hmk h1 hasher).1
  | ins hm key val hm2 idx b _ hkey hins ih =>
    exact (emplace_impl_spec ih hkey hins).1
  | del hm key n hm2 _ hkey hdel ih =>
    by_cases hp : ∃ i, i < bucket_count hm ∧ keyAt hm i = key
    · obtain ⟨i, hi, hki⟩ := hp
      obtain ⟨hmF, hrun, hwfF, _⟩ := erase_impl_spec_present ih hkey hi hki
      rw [hrun, Option.some.injEq] at hdel
      have hh : hm2 = hmF := congrArg Prod.snd hdel.symm
      rw [hh]
      exact hwfF
    · push_neg at hp
      rw [erase_impl_spec_absent ih hkey hp, Option.some.injEq] at hdel
      have hh : hm2 = hm := congrArg Prod.snd hdel.symm
      rw [hh]
      exact ih
  | reh hm count hm2 _ hreh ih =>
    exact (rehashWith_res_spec ih hreh).1
  | res hm count hm2 _ hres ih =>
    exact (rehashWith_res_spec ih hres).1
  | clr hm _ ih =>
    exact (clear_spec ih).1
  | idx hm key hm2 i _ hkey hop ih =>
    obtain ⟨b, hemp⟩ := op_index_inv hop
    exact (emplace_impl_spec ih hkey hemp).1

/-! ### The identity-hash chain states used for the load-factor boundary -/

theorem idState_bucket (cap n : Nat) : bucket_count (idState cap n) = cap := by
  show ((List.range cap).map fun i =>
    if 1 ≤ i ∧ i ≤ n then (i, 0) else (0, 0)).length = cap
  rw [List.length_map, List.length_range]

theorem idState_keyAt {cap n j : Nat} (hj : j < cap) :
    keyAt (idState cap n) j = if 1 ≤ j ∧ j ≤ n then j else 0 := by
  show (((List.range cap).map fun i =>
      if 1 ≤ i ∧ i ≤ n then (i, 0) else (0, 0)).getD j (0, 0)).1
    = if 1 ≤ j ∧ j ≤ n then j else 0
  rw [getD_eq_getElem (by rw [List.length_map, List.length_range]; exact hj)]
  rw [List.getElem_map, List.getElem_range]
  split_ifs <;> rfl

theorem idState_set {cap n : Nat} (hn1 : n + 1 < cap) :
    ((List.range cap).map fun i =>
        if 1 ≤ i ∧ i ≤ n then (i, 0) else (0, 0)).set (n + 1) (n + 1, 0)
      = (List.range cap).map fun i =>
          if 1 ≤ i ∧ i ≤ n + 1 then (i, 0) else (0, 0) := by
  apply List.ext_getElem
  · rw [List.length_set, List.length_map, List.length_map]
  · intro j h1 h2
    rw [List.length_set, List.length_map, List.length_range] at h1
    by_cases hj : n + 1 = j
    · subst hj
      rw [List.getElem_set_self, List.getElem_map, List.getElem_range,
        if_pos (show 1 ≤ n + 1 ∧ n + 1 ≤ n + 1 by omega)]
    · rw [List.getElem_set_ne hj, List.getElem_map, List.getElem_map,
        List.getElem_range]
      split_ifs with hA hB hB
      · rfl
      · exact absurd (show 1 ≤ j ∧ j ≤ n + 1 by omega) hB
      · exact absurd hB (by omega)
      · rfl

theorem idState_zero (m : Nat) :
    idState m 0 = ⟨0, List.replicate m (0, 0), 0⟩ := by
  unfold idState
  congr 1
  apply List.ext_getElem
  · rw [List.length_map, List.length_range, List.length_replicate]
  · intro j h1 h2
    rw [List.getElem_map, List.getElem_range, List.getElem_replicate,
      if_neg (by omega)]

theorem floatRound_pow24_succ : floatRound (2 ^ 24 + 1) = 2 ^ 24 := by
  have hlog : Nat.log 2 (2 ^ 24 + 1) = 24 :=
    Nat.log_eq_of_pow_le_of_lt_pow (by norm_num) (by norm_num)
  rw [floatRound, if_neg (by norm_num), hlog]
  norm_num

theorem idState_no_trigger {cap n : Nat} (h : 2 * floatRound (n + 1) ≤ cap) :
    ¬ needs_rehash (idState cap n) := by
  unfold needs_rehash
  rw [idState_bucket]
  show ¬ cap < 2 * floatRound (n + 1)
  omega

theorem idState_trigger {cap n : Nat} (h : cap < 2 * floatRound (n + 1)) :
    needs_rehash (idState cap n) := by
  unfold needs_rehash
  rw [idState_bucket]
  show cap < 2 * floatRound (n + 1)
  exact h

theorem idState_probe {cap k n : Nat} (hcap : cap = 2 ^ k) (hk : k ≤ 63)
    (hn1 : n + 1 < cap) :
    probeInsert (idState cap n) (n + 1) 0 (bucket_count (idState cap n))
      (key_to_idx (fun x => x) (idState cap n) (n + 1))
      = some (idState cap (n + 1), n + 1, true) := by
  have hbc : bucket_count (idState cap n) = cap := idState_bucket cap n
  have hcappow : bucket_count (idState cap n) = 2 ^ k := by rw [hbc, hcap]
  have hcpos : 0 < bucket_count (idState cap n) := by
    rw [hcappow]
    positivity
  have hki : key_to_idx (fun x => x) (idState cap n) (n + 1) = n + 1 := by
    rw [key_to_idx_eq hcappow hk]
    show (n + 1) % bucket_count (idState cap n) = n + 1
    rw [hbc]
    exact Nat.mod_eq_of_lt hn1
  have hee : keyAt (idState cap n) (n + 1) = (idState cap n).m_empty_key := by
    rw [idState_keyAt hn1, if_neg (by omega)]
    rfl
  have hrun := @probeInsert_new (idState cap n) (n + 1) 0 k hcappow hk (n + 1)
    (by rw [hbc]; exact hn1) hee (bucket_count (idState cap n)) (n + 1)
    (by rw [hbc]; exact hn1)
    (fun j hj hjd => absurd hjd (by rw [cdist_self]; omega))
    (by rw [cdist_self]; exact hcpos)
  have heq2 : ({ idState cap n with
      m_buckets := (idState cap n).m_buckets.set (n + 1) (n + 1, 0),
      m_size := (idState cap n).m_size + 1 } : hash_map) = idState cap (n + 1) := by
    show (⟨0, ((List.range cap).map fun i =>
        if 1 ≤ i ∧ i ≤ n then (i, 0) else (0, 0)).set (n + 1) (n + 1, 0), n + 1⟩
      : hash_map) = idState cap (n + 1)
    unfold idState
    congr 1
    exact idState_set hn1
  rw [hki, hrun, heq2]

theorem idState_insert_step {cap k n : Nat} (hcap : cap = 2 ^ k) (hk : k ≤ 63)
    (hn1 : n + 1 < cap) (hnr : ¬ needs_rehash (idState cap n)) (f : Nat) :
    emplace_impl (fun x => x) f (idState cap n) (n + 1) 0
      = some (idState cap (n + 1), n + 1, true) := by
  rw [emplace_impl_no_rehash hnr]
  exact idState_probe hcap hk hn1

theorem idState_fill {cap k : Nat} (hcap : cap = 2 ^ k) (hk : k ≤ 63) :
    ∀ d n, n + d < cap →
      (∀ j, n ≤ j → j < n + d → 2 * floatRound (j + 1) ≤ cap) →
      Reach (fun x => x) (idState cap n) →
      Reach (fun x => x) (idState cap (n + d)) := by
  intro d
  induction d with
  | zero => intro n _ _ h; exact h
  | succ m ih =>
    intro n hle hok hre
    have hn1 : n + 1 < cap := by omega
    have hstep : insert (fun x => x) (idState cap n) (n + 1) 0
        = some (idState cap (n + 1), n + 1, true) := by
      unfold insert
      exact idState_insert_step hcap hk hn1
        (idState_no_trigger (hok n (le_refl n) (by omega))) 1
    have hre2 : Reach (fun x => x) (idState cap (n + 1)) :=
      Reach.ins _ (n + 1) 0 _ (n + 1) true hre
        (by show n + 1 ≠ 0; omega) hstep
    have h3 := ih (n + 1) (by omega)
      (fun j hj1 hj2 => hok j (by omega) (by omega)) hre2
    rw [show n + 1 + m = n + (m + 1) by omega] at h3
    exact h3

theorem two_floatRound_le (j : Nat) : 2 * floatRound j ≤ 4 * j := by
  have h1 := floatRound_le j
  have h2 := Nat.div_le_self j (2 ^ 24)
  omega

theorem idFold_go {cap cap4 k4 n0 : Nat} (hcap4 : cap4 = 2 ^ k4) (hk4 : k4 ≤ 63)
    (hn0cap : n0 + 1 < cap4) (hfit : 4 * n0 + 4 ≤ cap4) (hn0 : n0 < cap) :
    ∀ d j, j + d = cap →
      rehashFold (fun hm2 key2 val2 => emplace_impl (fun x => x) 0 hm2 key2 val2) 0
        (some (idState cap4 (min (j - 1) n0)))
        (((List.range cap).map fun i =>
          if 1 ≤ i ∧ i ≤ n0 then (i, 0) else (0, 0)).drop j)
      = some (idState cap4 n0) := by
  intro d
  induction d with
  | zero =>
    intro j hj
    rw [List.drop_eq_nil_of_le (by rw [List.length_map, List.length_range]; omega),
      rehashFold, show min (j - 1) n0 = n0 by omega]
  | succ m ih =>
    intro j hj
    have hjlen : j < ((List.range cap).map fun i =>
        if 1 ≤ i ∧ i ≤ n0 then (i, 0) else (0, 0)).length := by
      rw [List.length_map, List.length_range]
      omega
    rw [List.drop_eq_getElem_cons hjlen, List.getElem_map, List.getElem_range,
      rehashFold]
    by_cases hocc : 1 ≤ j ∧ j ≤ n0
    · rw [if_pos hocc]
      rw [if_neg (show ¬((j : Nat), (0 : Nat)).1 = 0 by show ¬j = 0; omega)]
      have hstep : emplace_impl (fun x => x) 0 (idState cap4 (min (j - 1) n0))
          (((j : Nat), (0 : Nat)).1) (((j : Nat), (0 : Nat)).2)
          = some (idState cap4 j, j, true) := by
        show emplace_impl (fun x => x) 0 (idState cap4 (min (j - 1) n0)) j 0
          = some (idState cap4 j, j, true)
        rw [show min (j - 1) n0 = j - 1 by omega]
        have h2 := @idState_insert_step cap4 k4 (j - 1) hcap4 hk4
          (by omega)
          (idState_no_trigger (by
            have h3 := two_floatRound_le (j - 1 + 1)
            omega)) 0
        rw [show j - 1 + 1 = j by omega] at h2
        exact h2
      rw [hstep]
      have h3 := ih (j + 1) (by omega)
      rw [show min (j + 1 - 1) n0 = j by omega] at h3
      exact h3
    · rw [if_neg hocc]
      rw [if_pos (show ((0 : Nat), (0 : Nat)).1 = 0 from rfl)]
      have h3 := ih (j + 1) (by omega)
      rw [show min (j + 1 - 1) n0 = min (j - 1) n0 by omega] at h3
      exact h3

theorem idState_grow {k n0 : Nat} (hk3 : 3 ≤ k) (hk : k ≤ 56)
    (hn0 : 2 * n0 = 2 ^ k)
    (htrig : needs_rehash (idState (2 ^ k) n0)) :
    insert (fun x => x) (idState (2 ^ k) n0) (n0 + 1) 0
      = some (idState (2 ^ (k + 2)) (n0 + 1), n0 + 1, true) := by
  have hpk : (8 : Nat) ≤ 2 ^ k := by
    calc (8 : Nat) = 2 ^ 3 := by norm_num
    _ ≤ 2 ^ k := Nat.pow_le_pow_right (by norm_num) hk3
  have h4cap : (2 : Nat) ^ (k + 2) = 4 * 2 ^ k := by ring
  have hcnt : (bucket_count (idState (2 ^ k) n0) <<< 2) % U64 = 2 ^ (k + 2) := by
    rw [idState_bucket, Nat.shiftLeft_eq]
    rw [show (2 : Nat) ^ k * 2 ^ 2 = 2 ^ (k + 2) by ring]
    have h1 : (2 : Nat) ^ (k + 2) ≤ 2 ^ 58 := Nat.pow_le_pow_right (by norm_num) (by omega)
    have h2 : (2 : Nat) ^ 58 < 2 ^ 64 := by norm_num
    unfold U64
    omega
  have hms : (idState (2 ^ k) n0).m_size = n0 := rfl
  have hmax : max (max minimum_capacity
        ((bucket_count (idState (2 ^ k) n0) <<< 2) % U64))
      (2 * floatRound (idState (2 ^ k) n0).m_size) = 2 ^ (k + 2) := by
    rw [hcnt, hms]
    have hmc : minimum_capacity = 8 := rfl
    have hfr := two_floatRound_le n0
    omega
  have hmk : mk_table (2 ^ (k + 2)) 0 = some (idState (2 ^ (k + 2)) 0) := by
    unfold mk_table
    rw [compute_closest_capacity_two_pow (by omega)]
    show (if 2 ^ (k + 2) ≤ vector_max_size then
        some (⟨0, List.replicate (2 ^ (k + 2)) (0, 0), 0⟩ : hash_map) else none)
      = some (idState (2 ^ (k + 2)) 0)
    rw [if_pos (show (2 : Nat) ^ (k + 2) ≤ vector_max_size by
      have h1 : (2 : Nat) ^ (k + 2) ≤ 2 ^ 58 :=
        Nat.pow_le_pow_right (by norm_num) (by omega)
      have h2 : (2 : Nat) ^ 58 ≤ vector_max_size := by
        unfold vector_max_size
        norm_num
      omega)]
    rw [idState_zero]
  have hreh : rehashWith
      (fun hm2 key2 val2 => emplace_impl (fun x => x) 0 hm2 key2 val2)
      (idState (2 ^ k) n0) ((bucket_count (idState (2 ^ k) n0) <<< 2) % U64)
      = some (idState (2 ^ (k + 2)) n0) := by
    unfold rehashWith
    rw [hmax, compute_closest_capacity_two_pow (by omega)]
    show (match mk_table (2 ^ (k + 2)) (idState (2 ^ k) n0).m_empty_key with
      | none => none
      | some fresh =>
        rehashFold (fun hm2 key2 val2 => emplace_impl (fun x => x) 0 hm2 key2 val2)
          (idState (2 ^ k) n0).m_empty_key (some fresh)
          (idState (2 ^ k) n0).m_buckets)
      = some (idState (2 ^ (k + 2)) n0)
    rw [show (idState (2 ^ k) n0).m_empty_key = 0 from rfl, hmk]
    show rehashFold (fun hm2 key2 val2 => emplace_impl (fun x => x) 0 hm2 key2 val2)
      0 (some (idState (2 ^ (k + 2)) 0)) (idState (2 ^ k) n0).m_buckets
      = some (idState (2 ^ (k + 2)) n0)
    rw [show (idState (2 ^ k) n0).m_buckets = (List.range (2 ^ k)).map
      (fun i => if 1 ≤ i ∧ i ≤ n0 then (i, 0) else (0, 0)) from rfl]
    have hfold := @idFold_go (2 ^ k) (2 ^ (k + 2)) (k + 2) n0 rfl (by omega)
      (by omega) (by omega) (by omega) (2 ^ k) 0 (by omega)
    rw [List.drop_zero, show min (0 - 1) n0 = 0 by omega] at hfold
    exact hfold
  unfold insert
  show emplace_impl (fun x => x) (0 + 1) (idState (2 ^ k) n0) (n0 + 1) 0
    = some (idState (2 ^ (k + 2)) (n0 + 1), n0 + 1, true)
  rw [emplace_impl_rehash htrig, hreh]
  show probeInsert (idState (2 ^ (k + 2)) n0) (n0 + 1) 0
      (bucket_count (idState (2 ^ (k + 2)) n0))
      (key_to_idx (fun x => x) (idState (2 ^ (k + 2)) n0) (n0 + 1))
    = some (idState (2 ^ (k + 2)) (n0 + 1), n0 + 1, true)
  exact @idState_probe (2 ^ (k + 2)) (k + 2) n0 rfl (by omega) (by omega)

theorem idState_phase {k n : Nat} (hk3 : 3 ≤ k) (hk : k ≤ 24)
    (hn : n ≤ 2 ^ (k - 1))
    (hre : Reach (fun x => x) (idState (2 ^ k) n)) :
    Reach (fun x => x) (idState (2 ^ (k + 2)) (2 ^ (k - 1) + 1)) := by
  have hhalf : 2 * 2 ^ (k - 1) = 2 ^ k := by
    rw [← pow_succ']
    congr 1
    omega
  have hp1 : 1 ≤ 2 ^ (k - 1) := Nat.one_le_two_pow
  have hsmall : 2 ^ (k - 1) ≤ 2 ^ 23 :=
    Nat.pow_le_pow_right (by norm_num) (by omega)
  have h23 : (2 : Nat) ^ 23 < 2 ^ 24 := by norm_num
  have hfill := @idState_fill (2 ^ k) k rfl (by omega) (2 ^ (k - 1) - n) n
    (by omega)
    (fun j hj1 hj2 => by
      rw [floatRound_exact (by omega)]
      omega)
    hre
  rw [show n + (2 ^ (k - 1) - n) = 2 ^ (k - 1) by omega] at hfill
  have htrig : needs_rehash (idState (2 ^ k) (2 ^ (k - 1))) := by
    apply idState_trigger
    rw [floatRound_exact (by omega)]
    omega
  have hgrow := idState_grow hk3 (by omega) hhalf htrig
  exact Reach.ins _ (2 ^ (k - 1) + 1) 0 _ (2 ^ (k - 1) + 1) true hfill
    (by show 2 ^ (k - 1) + 1 ≠ 0; omega) hgrow

theorem idState_reach_8 : Reach (fun x => x) (idState 8 0) := by
  rw [idState_zero]
  exact Reach.ctor 8 0 _ (by omega) (by decide)

theorem idState_reach_final : Reach (fun x => x) (idState (2 ^ 25) (2 ^ 24)) := by
  have h3 : Reach (fun x => x) (idState (2 ^ 3) 0) := by
    rw [show (2 : Nat) ^ 3 = 8 by norm_num]
    exact idState_reach_8
  have h5 : Reach (fun x => x) (idState (2 ^ 5) (2 ^ 2 + 1)) :=
    idState_phase (by norm_num) (by norm_num) (by norm_num) h3
  have h7 : Reach (fun x => x) (idState (2 ^ 7) (2 ^ 4 + 1)) :=
    idState_phase (by norm_num) (by norm_num) (by norm_num) h5
  have h9 : Reach (fun x => x) (idState (2 ^ 9) (2 ^ 6 + 1)) :=
    idState_phase (by norm_num) (by norm_num) (by norm_num) h7
  have h11 : Reach (fun x => x) (idState (2 ^ 11) (2 ^ 8 + 1)) :=
    idState_phase (by norm_num) (by norm_num) (by norm_num) h9
  have h13 : Reach (fun x => x) (idState (2 ^ 13) (2 ^ 10 + 1)) :=
    idState_phase (by norm_num) (by norm_num) (by norm_num) h11
  have h15 : Reach (fun x => x) (idState (2 ^ 15) (2 ^ 12 + 1)) :=
    idState_phase (by norm_num) (by norm_num) (by norm_num) h13
  have h17 : Reach (fun x => x) (idState (2 ^ 17) (2 ^ 14 + 1)) :=
    idState_phase (by norm_num) (by norm_num) (by norm_num) h15
  have h19 : Reach (fun x => x) (idState (2 ^ 19) (2 ^ 16 + 1)) :=
    idState_phase (by norm_num) (by norm_num) (by norm_num) h17
  have h21 : Reach (fun x => x) (idState (2 ^ 21) (2 ^ 18 + 1)) :=
    idState_phase (by norm_num) (by norm_num) (by norm_num) h19
  have h23 : Reach (fun x => x) (idState (2 ^ 23) (2 ^ 20 + 1)) :=
    idState_phase (by norm_num) (by norm_num) (by norm_num) h21
  have h25 : Reach (fun x => x) (idState (2 ^ 25) (2 ^ 22 + 1)) :=
    idState_phase (by norm_num) (by norm_num) (by norm_num) h23
  have hfin := @idState_fill (2 ^ 25) 25 rfl (by norm_num)
    (2 ^ 24 - (2 ^ 22 + 1)) (2 ^ 22 + 1)
    (by norm_num)
    (fun j hj1 hj2 => by
      rw [floatRound_exact (by omega)]
      omega)
    h25
  rw [show 2 ^ 22 + 1 + (2 ^ 24 - (2 ^ 22 + 1)) = 2 ^ 24 by norm_num] at hfin
  exact hfin

theorem idState_last_insert :
    insert (fun x => x) (idState (2 ^ 25) (2 ^ 24)) (2 ^ 24 + 1) 0
      = some (idState (2 ^ 25) (2 ^ 24 + 1), 2 ^ 24 + 1, true) := by
  unfold insert
  exact @idState_insert_step (2 ^ 25) 25 (2 ^ 24) rfl (by norm_num) (by norm_num)
    (idState_no_trigger (by rw [floatRound_pow24_succ]; norm_num)) 1

theorem idState_reach_past :
    Reach (fun x => x) (idState (2 ^ 25) (2 ^ 24 + 1)) :=
  Reach.ins _ (2 ^ 24 + 1) 0 _ (2 ^ 24 + 1) true idState_reach_final
    (by show 2 ^ 24 + 1 ≠ 0; norm_num) idState_last_insert

/-! ### Abstract find/mapping correspondence and persistence across operations -/

theorem findsPair_iff_mapsTo {hasher : Nat → Nat} {hm : hash_map}
    (hwf : WF hasher hm) {k2 v2 : Nat} (hk2 : k2 ≠ hm.m_empty_key) :
    findsPair hasher hm k2 v2 ↔ mapsTo hm k2 v2 := by
  obtain ⟨k, hk, hcap⟩ := hwf.cap_pow
  have hk63 : k ≤ 63 := by omega
  constructor
  · rintro ⟨i, hfind, hsl⟩
    unfold find_impl at hfind
    have hlt := findLoop_found_lt hcap hk63 (key_to_idx_lt hcap hk63) hfind
    exact ⟨hk2, i, hlt, hsl⟩
  · rintro ⟨_, i, hi, hsl⟩
    have hki : keyAt hm i = k2 := by
      unfold keyAt
      rw [hsl]
    exact ⟨i, find_spec_found hwf hk2 hi hki, hsl⟩

theorem is_pow_two_two_pow (k : Nat) : is_pow_two (2 ^ k) = true := by
  unfold is_pow_two
  rw [Nat.log_pow (by norm_num)]
  simp

theorem applyOp_preserve {hasher : Nat → Nat} {ek key val : Nat}
    {hm1 hm3 : hash_map} {op : TableOp}
    (hwf : WF hasher hm1) (hek : hm1.m_empty_key = ek) (hkey : key ≠ ek)
    (hmap : mapsTo hm1 key val) (hav : avoidsKey key ek op)
    (happ : applyOp hasher hm1 op = some hm3) :
    WF hasher hm3 ∧ hm3.m_empty_key = ek ∧ mapsTo hm3 key val := by
  cases op with
  | ins k v =>
    obtain ⟨hk1, hk2⟩ := hav
    have happ2 : Option.map (fun r => r.1) (insert hasher hm1 k v) = some hm3 := happ
    cases hins : insert hasher hm1 k v with
    | none =>
      rw [hins] at happ2
      exact absurd happ2 (by simp)
    | some r =>
      obtain ⟨hm2, i, b⟩ := r
      rw [hins] at happ2
      have h2 : some hm2 = some hm3 := happ2
      rw [Option.some.injEq] at h2
      rw [← h2]
      unfold insert at hins
      obtain ⟨hwf2, hek2, htrue, hfalse⟩ :=
        emplace_impl_spec hwf (by rw [hek]; exact hk2) hins
      cases b with
      | true =>
        obtain ⟨_, _, hmaps, _, _⟩ := htrue rfl
        exact ⟨hwf2, hek2.trans hek, (hmaps key val).mpr (Or.inl hmap)⟩
      | false =>
        obtain ⟨_, hmaps, _, _⟩ := hfalse rfl
        exact ⟨hwf2, hek2.trans hek, (hmaps key val).mpr hmap⟩
  | del k =>
    obtain ⟨hk1, hk2⟩ := hav
    have happ2 : Option.map (fun r => r.2) (erase_impl hasher hm1 k) = some hm3 := happ
    cases hdel : erase_impl hasher hm1 k with
    | none =>
      rw [hdel] at happ2
      exact absurd happ2 (by simp)
    | some r =>
      obtain ⟨n, hm2⟩ := r
      rw [hdel] at happ2
      have h2 : some hm2 = some hm3 := happ2
      rw [Option.some.injEq] at h2
      rw [← h2]
      by_cases hp : ∃ i, i < bucket_count hm1 ∧ keyAt hm1 i = k
      · obtain ⟨i, hi, hki⟩ := hp
        obtain ⟨hmF, hrun, hwfF, hekF, hcapF, hszF, hmapF⟩ :=
          erase_impl_spec_present hwf (by rw [hek]; exact hk2) hi hki
        rw [hrun, Option.some.injEq] at hdel
        have h3 : hm2 = hmF := congrArg Prod.snd hdel.symm
        rw [h3]
        exact ⟨hwfF, hekF.trans hek, (hmapF key val).mpr ⟨hmap, Ne.symm hk1⟩⟩
      · push_neg at hp
        rw [erase_impl_spec_absent hwf (by rw [hek]; exact hk2) hp,
          Option.some.injEq] at hdel
        have h3 : hm2 = hm1 := congrArg Prod.snd hdel.symm
        rw [h3]
        exact ⟨hwf, hek, hmap⟩
  | reh n =>
    have happ2 : rehash hasher hm1 n = some hm3 := happ
    unfold rehash at happ2
    obtain ⟨hwfN, hekN, _, hmapsN, _⟩ := rehashWith_res_spec hwf happ2
    exact ⟨hwfN, hekN.trans hek, (hmapsN key val).mpr hmap⟩

theorem applyOps_preserve {hasher : Nat → Nat} {ek key val : Nat} :
    ∀ (ops : List TableOp) (hm1 hm2 : hash_map),
      WF hasher hm1 → hm1.m_empty_key = ek → key ≠ ek → mapsTo hm1 key val →
      (∀ op ∈ ops, avoidsKey key ek op) →
      applyOps hasher hm1 ops = some hm2 →
      WF hasher hm2 ∧ hm2.m_empty_key = ek ∧ mapsTo hm2 key val := by
  intro ops
  induction ops with
  | nil =>
    intro hm1 hm2 hwf hek hkey hmap _ happ
    have h2 : some hm1 = some hm2 := happ
    rw [Option.some.injEq] at h2
    rw [← h2]
    exact ⟨hwf, hek, hmap⟩
  | cons op rest ih =>
    intro hm1 hm2 hwf hek hkey hmap hav happ
    rw [applyOps] at happ
    cases hop : applyOp hasher hm1 op with
    | none =>
      rw [hop] at happ
      exact absurd happ (by simp)
    | some hm3 =>
      rw [hop] at happ
      have h2 : applyOps hasher hm3 rest = some hm2 := happ
      obtain ⟨hwf3, hek3, hmap3⟩ := applyOp_preserve hwf hek hkey hmap
        (hav op (List.mem_cons_self op rest)) hop
      exact ih hm3 hm2 hwf3 hek3 hkey hmap3
        (fun op2 hop2 => hav op2 (List.mem_cons_of_mem op hop2)) h2

theorem insert_cap_spec {hasher : Nat → Nat} {hm : hash_map} {key val : Nat}
    {hm2 : hash_map} {i : Nat} {b : Bool}
    (hwf : WF hasher hm) (hkey : key ≠ hm.m_empty_key)
    (h : insert hasher hm key val = some (hm2, i, b)) :
    (needs_rehash hm → 4 * bucket_count hm ≤ bucket_count hm2)
      ∧ (¬ needs_rehash hm → bucket_count hm2 = bucket_count hm) := by
  classical
  obtain ⟨k, hk, hcap⟩ := hwf.cap_pow
  unfold insert at h
  by_cases hnr : needs_rehash hm
  · refine ⟨fun _ => ?_, fun hc => absurd hnr hc⟩
    rw [show (1 : Nat) = 0 + 1 from rfl, emplace_impl_rehash hnr] at h
    cases hre : rehashWith
        (fun hm2 key2 val2 => emplace_impl hasher 0 hm2 key2 val2)
        hm ((bucket_count hm <<< 2) % U64) with
    | none =>
      rw [hre] at h
      exact absurd h (by simp)
    | some hmR =>
      rw [hre] at h
      have h2 : probeInsert hmR key val (bucket_count hmR)
          (key_to_idx hasher hmR key) = some (hm2, i, b) := h
      obtain ⟨hwfR, hekR, hszR, hmapsR, hccc, h8R, hfrR⟩ := rehashWith_res_spec hwf hre
      have hs4 : (bucket_count hm <<< 2) % U64 = 4 * bucket_count hm := by
        rw [Nat.shiftLeft_eq, hcap]
        rw [show (2 : Nat) ^ k * 2 ^ 2 = 2 ^ (k + 2) by ring]
        have h3 : (2 : Nat) ^ (k + 2) ≤ 2 ^ 60 :=
          Nat.pow_le_pow_right (by norm_num) (by omega)
        have h4 : (2 : Nat) ^ 60 < 2 ^ 64 := by norm_num
        have h5 : (2 : Nat) ^ (k + 2) = 4 * 2 ^ k := by ring
        unfold U64
        omega
      have hle : 4 * bucket_count hm ≤ bucket_count hmR := by
        have hmc : minimum_capacity = 8 := rfl
        have h3 := le_max_left minimum_capacity ((bucket_count hm <<< 2) % U64)
        have h4 := le_max_right minimum_capacity ((bucket_count hm <<< 2) % U64)
        have h5 := le_max_left (max minimum_capacity
          ((bucket_count hm <<< 2) % U64)) (2 * floatRound hm.m_size)
        obtain ⟨hle2, _⟩ := ccc_le (by omega) hccc
        rw [hs4] at h4
        omega
      have hkeyR : key ≠ hmR.m_empty_key := by
        rw [hekR]
        exact hkey
      by_cases hpres : ∃ j, j < bucket_count hmR ∧ keyAt hmR j = key
      · obtain ⟨j, hj, hkj⟩ := hpres
        rw [probeInsert_present_spec hwfR hkeyR hj hkj, Option.some.injEq] at h2
        have h3 : hmR = hm2 := congrArg Prod.fst h2
        rw [← h3]
        omega
      · push_neg at hpres
        have hloadR : 2 * floatRound (hmR.m_size + 1) ≤ bucket_count hmR := by
          have hslt : hm.m_size < bucket_count hm := size_lt_cap hwf
          have h6 : floatRound (hmR.m_size + 1) ≤ floatRound (bucket_count hm) := by
            apply floatRound_mono
            omega
          have h7 : floatRound (bucket_count hm) = bucket_count hm := by
            rw [hcap]
            exact floatRound_two_pow k
          omega
        obtain ⟨e, hm2c, hrun, hwf2, he, hee, hbuck2, hcap2, hek2, hsize2, hmaps2⟩ :=
          @probeInsert_absent_spec hasher hmR key val hwfR hkeyR hpres hloadR
        rw [hrun, Option.some.injEq] at h2
        have h3 : hm2c = hm2 := congrArg Prod.fst h2
        rw [← h3]
        omega
  · refine ⟨fun hc => absurd hc hnr, fun _ => ?_⟩
    rw [emplace_impl_no_rehash hnr] at h
    by_cases hpres : ∃ j, j < bucket_count hm ∧ keyAt hm j = key
    · obtain ⟨j, hj, hkj⟩ := hpres
      rw [probeInsert_present_spec hwf hkey hj hkj, Option.some.injEq] at h
      have h3 : hm = hm2 := congrArg Prod.fst h
      rw [← h3]
    · push_neg at hpres
      have hload : 2 * floatRound (hm.m_size + 1) ≤ bucket_count hm := by
        unfold needs_rehash at hnr
        omega
      obtain ⟨e, hm2c, hrun, hwf2, he, hee, hbuck2, hcap2, hek2, hsize2, hmaps2⟩ :=
        @probeInsert_absent_spec hasher hm key val hwf hkey hpres hload
      rw [hrun, Option.some.injEq] at h
      have h3 : hm2c = hm2 := congrArg Prod.fst h
      rw [← h3]
      exact hcap2

/-! ### The claims -/

/-- C1: deletion completeness of the backward-shift erase.  On every table
reachable through the public interface, after `erase(key)` completes, `find`
on that key reports absent, and every other key maps to exactly the pairs it
mapped to before: it remains findable with its value via the probe loop. -/
theorem claim_C1 {hasher : Nat → Nat} {hm : hash_map} (hre : Reach hasher hm)
    {key : Nat} (hkey : key ≠ hm.m_empty_key) {n : Nat} {hm2 : hash_map}
    (hdel : erase_impl hasher hm key = some (n, hm2)) :
    find_impl hasher hm2 key = FindResult.absent
      ∧ (∀ k2 v2, k2 ≠ key → k2 ≠ hm.m_empty_key →
          (findsPair hasher hm2 k2 v2 ↔ findsPair hasher hm k2 v2)) := by
  have hwf := reach_WF hre
  by_cases hp : ∃ i, i < bucket_count hm ∧ keyAt hm i = key
  · obtain ⟨i, hi, hki⟩ := hp
    obtain ⟨hmF, hrun, hwfF, hekF, hcapF, hszF, hmapF⟩ :=
      erase_impl_spec_present hwf hkey hi hki
    rw [hrun, Option.some.injEq] at hdel
    have hh : hm2 = hmF := congrArg Prod.snd hdel.symm
    rw [hh]
    constructor
    · apply find_spec_absent hwfF (by rw [hekF]; exact hkey)
      intro j hj hkj
      have hon : keyAt hmF j ≠ hmF.m_empty_key := by
        rw [hkj, hekF]
        exact hkey
      have hmapj := keyAt_to_mapsTo hj hon
      rw [hkj] at hmapj
      obtain ⟨_, hne⟩ := (hmapF key (slotAt hmF j).2).mp hmapj
      exact hne rfl
    · intro k2 v2 hk2 hk2e
      rw [findsPair_iff_mapsTo hwfF (by rw [hekF]; exact hk2e),
        findsPair_iff_mapsTo hwf hk2e, hmapF k2 v2]
      constructor
      · rintro ⟨h1, _⟩
        exact h1
      · intro h1
        exact ⟨h1, hk2⟩
  · push_neg at hp
    rw [erase_impl_spec_absent hwf hkey hp, Option.some.injEq] at hdel
    have hh : hm2 = hm := congrArg Prod.snd hdel.symm
    rw [hh]
    exact ⟨find_spec_absent hwf hkey hp, fun k2 v2 _ _ => Iff.rfl⟩

theorem claim_C1_witness :
    find_impl (fun x => x)
        ⟨0, [(0, 0), (0, 5), (0, 0), (0, 0), (0, 0), (0, 0), (0, 0), (0, 0)], 0⟩ 1
        = FindResult.absent
      ∧ (∀ k2 v2, k2 ≠ 1 →
          k2 ≠ (⟨0, [(0, 0), (1, 5), (0, 0), (0, 0), (0, 0), (0, 0), (0, 0), (0, 0)], 1⟩
            : hash_map).m_empty_key →
          (findsPair (fun x => x)
              ⟨0, [(0, 0), (0, 5), (0, 0), (0, 0), (0, 0), (0, 0), (0, 0), (0, 0)], 0⟩
              k2 v2
            ↔ findsPair (fun x => x)
              ⟨0, [(0, 0), (1, 5), (0, 0), (0, 0), (0, 0), (0, 0), (0, 0), (0, 0)], 1⟩
              k2 v2)) :=
  @claim_C1 (fun x => x) (⟨0, [(0, 0), (1, 5), (0, 0), (0, 0), (0, 0), (0, 0), (0, 0), (0, 0)], 1⟩ : hash_map)
    (Reach.ins (⟨0, List.replicate 8 (0, 0), 0⟩ : hash_map) 1 5 (⟨0, [(0, 0), (1, 5), (0, 0), (0, 0), (0, 0), (0, 0), (0, 0), (0, 0)], 1⟩ : hash_map) 1 true (Reach.ctor 8 0 (⟨0, List.replicate 8 (0, 0), 0⟩ : hash_map) (by norm_num) (by decide)) (by decide) (by decide))
    1 (by decide) 1 (⟨0, [(0, 0), (0, 5), (0, 0), (0, 0), (0, 0), (0, 0), (0, 0), (0, 0)], 0⟩ : hash_map) (by decide)

/-- C2 (amended): after every completed operation the size field equals the
number of occupied slots, and the float-rounded load bound
`2 * floatRound size ≤ bucket_count` holds; the exact bound
`2 * size ≤ bucket_count` can fail by the float rounding error (see the
counterexample at capacity `2 ^ 25`). -/
theorem claim_C2 {hasher : Nat → Nat} {hm : hash_map} (hre : Reach hasher hm) :
    hm.m_size = countOcc hm ∧ 2 * floatRound hm.m_size ≤ bucket_count hm :=
  ⟨(reach_WF hre).size_eq, (reach_WF hre).load⟩

theorem claim_C2_witness :
    (⟨0, List.replicate 8 (0, 0), 0⟩ : hash_map).m_size
        = countOcc ⟨0, List.replicate 8 (0, 0), 0⟩
      ∧ 2 * floatRound (⟨0, List.replicate 8 (0, 0), 0⟩ : hash_map).m_size
        ≤ bucket_count ⟨0, List.replicate 8 (0, 0), 0⟩ :=
  @claim_C2 (fun x => x) (⟨0, List.replicate 8 (0, 0), 0⟩ : hash_map) (Reach.ctor 8 0 (⟨0, List.replicate 8 (0, 0), 0⟩ : hash_map) (by norm_num) (by decide))

/-- C2 counterexample: the table reached by inserting the keys
`1 .. 2 ^ 24 + 1` under the identity hash holds `2 ^ 24 + 1` entries in
`2 ^ 25` buckets: the insert of the last key does not trigger a rehash
because `(float)(2 ^ 24 + 1)` rounds down to `2 ^ 24`, so
`size / bucket_count > 0.5` after a completed insert. -/
theorem claim_C2_cex :
    Reach (fun x => x) (idState (2 ^ 25) (2 ^ 24 + 1))
      ∧ ¬ (2 * (idState (2 ^ 25) (2 ^ 24 + 1)).m_size
            ≤ bucket_count (idState (2 ^ 25) (2 ^ 24 + 1))) := by
  refine ⟨idState_reach_past, ?_⟩
  rw [idState_bucket]
  show ¬ (2 * (2 ^ 24 + 1) ≤ 2 ^ 25)
  norm_num

/-- C3: round-trip.  A pair inserted with `inserted = true` stays findable
with its value across any further sequence of completed inserts, erases and
rehashes that do not touch that key. -/
theorem claim_C3 {hasher : Nat → Nat} {hm : hash_map} (hre : Reach hasher hm)
    {key val : Nat} (hkey : key ≠ hm.m_empty_key)
    {hm1 : hash_map} {i : Nat}
    (hins : insert hasher hm key val = some (hm1, i, true))
    {ops : List TableOp} (hops : ∀ op ∈ ops, avoidsKey key hm.m_empty_key op)
    {hm2 : hash_map} (happ : applyOps hasher hm1 ops = some hm2) :
    findsPair hasher hm2 key val := by
  have hwf := reach_WF hre
  have hins2 : emplace_impl hasher 1 hm key val = some (hm1, i, true) := hins
  obtain ⟨hwf1, hek1, htrue, _⟩ := emplace_impl_spec hwf hkey hins2
  obtain ⟨_, _, hmaps, _, _⟩ := htrue rfl
  have hmap1 : mapsTo hm1 key val := (hmaps key val).mpr (Or.inr ⟨rfl, rfl⟩)
  obtain ⟨hwf2, hek2, hmap2⟩ :=
    applyOps_preserve ops hm1 hm2 hwf1 hek1 hkey hmap1 hops happ
  exact (findsPair_iff_mapsTo hwf2 (by rw [hek2]; exact hkey)).mpr hmap2

theorem claim_C3_witness :
    findsPair (fun x => x)
      ⟨0, [(0, 0), (1, 5), (0, 0), (0, 0), (0, 0), (0, 0), (0, 0), (0, 0)], 1⟩ 1 5 :=
  @claim_C3 (fun x => x) (⟨0, List.replicate 8 (0, 0), 0⟩ : hash_map) (Reach.ctor 8 0 (⟨0, List.replicate 8 (0, 0), 0⟩ : hash_map) (by norm_num) (by decide)) 1 5 (by decide)
    (⟨0, [(0, 0), (1, 5), (0, 0), (0, 0), (0, 0), (0, 0), (0, 0), (0, 0)], 1⟩ : hash_map) 1 (by decide) []
    (fun op hop => absurd hop (List.not_mem_nil op)) (⟨0, [(0, 0), (1, 5), (0, 0), (0, 0), (0, 0), (0, 0), (0, 0), (0, 0)], 1⟩ : hash_map) rfl

/-- C4 (amended): every table built by the constructor from a nonzero
capacity hint has a power-of-two bucket count that is at least the hint;
the bound `bucket_count ≥ 8` holds only when the hint itself is at least the
configured minimum — the converting constructor does not clamp small hints
up to `minimum_capacity()` (see the counterexample with hint 2). -/
theorem claim_C4 {hint ek : Nat} {hm : hash_map} (h1 : 1 ≤ hint)
    (hmk : mk_table hint ek = some hm) :
    is_pow_two (bucket_count hm) = true
      ∧ hint ≤ bucket_count hm
      ∧ (minimum_capacity ≤ hint → minimum_capacity ≤ bucket_count hm) := by
  obtain ⟨hwf, _, _, _, hmin, _, _⟩ := mk_table_spec hmk h1 (fun x => x)
  obtain ⟨k, hk, hcap⟩ := hwf.cap_pow
  refine ⟨?_, hmin, fun h8 => le_trans h8 hmin⟩
  rw [hcap]
  exact is_pow_two_two_pow k

theorem claim_C4_witness :
    is_pow_two (bucket_count (⟨0, List.replicate 8 (0, 0), 0⟩ : hash_map)) = true
      ∧ 8 ≤ bucket_count (⟨0, List.replicate 8 (0, 0), 0⟩ : hash_map)
      ∧ (minimum_capacity ≤ 8 →
          minimum_capacity ≤ bucket_count (⟨0, List.replicate 8 (0, 0), 0⟩ : hash_map)) :=
  @claim_C4 8 0 (⟨0, List.replicate 8 (0, 0), 0⟩ : hash_map) (by norm_num) (by decide)

/-- C4 counterexample: `hash_map(2)` builds a table of 2 buckets — the
constructor rounds the hint to a power of two but never applies the
minimum of 8. -/
theorem claim_C4_cex :
    mk_table 2 0 = some ⟨0, List.replicate 2 (0, 0), 0⟩
      ∧ ¬ 8 ≤ bucket_count (⟨0, List.replicate 2 (0, 0), 0⟩ : hash_map) :=
  ⟨by decide, by decide⟩

/-- C5 (amended): for `1 ≤ min_capacity ≤ 2 ^ 63` the policy returns the
smallest power of two at least `min_capacity`, and above `2 ^ 63` it fails
fast; at `min_capacity = 0` however the decrement wraps and the function
returns capacity 0, which is not a power of two (see the counterexample). -/
theorem claim_C5 {m : Nat} (h1 : 1 ≤ m) :
    (m ≤ 2 ^ 63 → ∃ r, compute_closest_capacity m = some r
        ∧ is_pow_two r = true ∧ m ≤ r ∧ (∀ j, m ≤ 2 ^ j → r ≤ 2 ^ j))
      ∧ (2 ^ 63 < m → compute_closest_capacity m = none) := by
  constructor
  · intro h63
    exact ⟨2 ^ bitlen (m - 1), compute_closest_capacity_eq h1 h63,
      is_pow_two_two_pow _, le_two_pow_bitlen h1,
      fun j hj => two_pow_bitlen_min h1 hj⟩
  · exact compute_closest_capacity_overflow

theorem claim_C5_witness :
    (5 ≤ 2 ^ 63 → ∃ r, compute_closest_capacity 5 = some r
        ∧ is_pow_two r = true ∧ 5 ≤ r ∧ (∀ j, 5 ≤ 2 ^ j → r ≤ 2 ^ j))
      ∧ (2 ^ 63 < 5 → compute_closest_capacity 5 = none) :=
  claim_C5 (by norm_num)

/-- C5 counterexample: `compute_closest_capacity(0)` wraps the decrement and
returns 0 — not the smallest power of two at least 0, and not a power of
two at all: the function silently produces a zero capacity instead of
rounding up or failing. -/
theorem claim_C5_cex :
    compute_closest_capacity 0 = some 0 ∧ is_pow_two 0 = false := by
  refine ⟨by decide, ?_⟩
  unfold is_pow_two
  rw [Nat.log_zero_right]
  decide

/-- C6 (amended): the pre-insert growth check compares against the
float-rounded size, not the exact one: when `needs_rehash` fires, the
capacity is at least quadrupled before the element is placed; when it does
not fire the capacity is unchanged; and the float-rounded post-insert load
stays at most one half.  The exact-threshold reading of the trigger is
refuted by the counterexample at `size + 1 = 2 ^ 24 + 1`. -/
theorem claim_C6 {hasher : Nat → Nat} {hm : hash_map} (hre : Reach hasher hm)
    {key val : Nat} (hkey : key ≠ hm.m_empty_key)
    {hm2 : hash_map} {i : Nat} {b : Bool}
    (hins : insert hasher hm key val = some (hm2, i, b)) :
    (needs_rehash hm → 4 * bucket_count hm ≤ bucket_count hm2)
      ∧ (¬ needs_rehash hm → bucket_count hm2 = bucket_count hm)
      ∧ 2 * floatRound hm2.m_size ≤ bucket_count hm2 := by
  have hwf := reach_WF hre
  obtain ⟨h1, h2⟩ := insert_cap_spec hwf hkey hins
  have hins2 : emplace_impl hasher 1 hm key val = some (hm2, i, b) := hins
  exact ⟨h1, h2, (emplace_impl_spec hwf hkey hins2).1.load⟩

theorem claim_C6_witness :
    (needs_rehash (⟨0, List.replicate 8 (0, 0), 0⟩ : hash_map) →
        4 * bucket_count (⟨0, List.replicate 8 (0, 0), 0⟩ : hash_map)
          ≤ bucket_count (⟨0, [(0, 0), (1, 5), (0, 0), (0, 0), (0, 0), (0, 0),
              (0, 0), (0, 0)], 1⟩ : hash_map))
      ∧ (¬ needs_rehash (⟨0, List.replicate 8 (0, 0), 0⟩ : hash_map) →
          bucket_count (⟨0, [(0, 0), (1, 5), (0, 0), (0, 0), (0, 0), (0, 0),
              (0, 0), (0, 0)], 1⟩ : hash_map)
            = bucket_count (⟨0, List.replicate 8 (0, 0), 0⟩ : hash_map))
      ∧ 2 * floatRound (⟨0, [(0, 0), (1, 5), (0, 0), (0, 0), (0, 0), (0, 0),
            (0, 0), (0, 0)], 1⟩ : hash_map).m_size
          ≤ bucket_count (⟨0, [(0, 0), (1, 5), (0, 0), (0, 0), (0, 0), (0, 0),
              (0, 0), (0, 0)], 1⟩ : hash_map) :=
  @claim_C6 (fun x => x) (⟨0, List.replicate 8 (0, 0), 0⟩ : hash_map) (Reach.ctor 8 0 (⟨0, List.replicate 8 (0, 0), 0⟩ : hash_map) (by norm_num) (by decide)) 1 5 (by decide)
    (⟨0, [(0, 0), (1, 5), (0, 0), (0, 0), (0, 0), (0, 0), (0, 0), (0, 0)], 1⟩ : hash_map) 1 true (by decide)

/-- C6 counterexample: at `size = 2 ^ 24`, `bucket_count = 2 ^ 25`, the
next insert has `size + 1 > bucket_count * 0.5` exactly, yet no rehash
happens — `(float)(size + 1)` rounds down to `2 ^ 24` — and the insert
completes with the capacity unchanged, refuting the exact-threshold
trigger. -/
theorem claim_C6_cex :
    Reach (fun x => x) (idState (2 ^ 25) (2 ^ 24))
      ∧ bucket_count (idState (2 ^ 25) (2 ^ 24))
          < 2 * ((idState (2 ^ 25) (2 ^ 24)).m_size + 1)
      ∧ insert (fun x => x) (idState (2 ^ 25) (2 ^ 24)) (2 ^ 24 + 1) 0
          = some (idState (2 ^ 25) (2 ^ 24 + 1), 2 ^ 24 + 1, true)
      ∧ bucket_count (idState (2 ^ 25) (2 ^ 24 + 1))
          = bucket_count (idState (2 ^ 25) (2 ^ 24)) := by
  refine ⟨idState_reach_final, ?_, idState_last_insert, ?_⟩
  · rw [idState_bucket]
    show 2 ^ 25 < 2 * (2 ^ 24 + 1)
    norm_num
  · rw [idState_bucket, idState_bucket]

/-- C7: duplicate-insert law.  Inserting a key already present returns
`inserted = false` and the pair the key mapped to before is still in the
table afterwards (first write wins). -/
theorem claim_C7 {hasher : Nat → Nat} {hm : hash_map} (hre : Reach hasher hm)
    {key v v2 : Nat} (hkey : key ≠ hm.m_empty_key) (hpres : mapsTo hm key v)
    {hm2 : hash_map} {i : Nat} {b : Bool}
    (hins : insert hasher hm key v2 = some (hm2, i, b)) :
    b = false ∧ mapsTo hm2 key v := by
  have hwf := reach_WF hre
  have hins2 : emplace_impl hasher 1 hm key v2 = some (hm2, i, b) := hins
  obtain ⟨hwf2, hek2, htrue, hfalse⟩ := emplace_impl_spec hwf hkey hins2
  cases b with
  | true =>
    obtain ⟨_, habs, _, _, _⟩ := htrue rfl
    obtain ⟨_, j, hj, hsl⟩ := hpres
    have hkj : keyAt hm j = key := by
      unfold keyAt
      rw [hsl]
    exact absurd hkj (habs j hj)
  | false =>
    obtain ⟨_, hmaps, _, _⟩ := hfalse rfl
    exact ⟨rfl, (hmaps key v).mpr hpres⟩

theorem claim_C7_witness :
    false = false
      ∧ mapsTo ⟨0, [(0, 0), (1, 5), (0, 0), (0, 0), (0, 0), (0, 0), (0, 0), (0, 0)], 1⟩
          1 5 :=
  @claim_C7 (fun x => x) (⟨0, [(0, 0), (1, 5), (0, 0), (0, 0), (0, 0), (0, 0), (0, 0), (0, 0)], 1⟩ : hash_map)
    (Reach.ins (⟨0, List.replicate 8 (0, 0), 0⟩ : hash_map) 1 5 (⟨0, [(0, 0), (1, 5), (0, 0), (0, 0), (0, 0), (0, 0), (0, 0), (0, 0)], 1⟩ : hash_map) 1 true (Reach.ctor 8 0 (⟨0, List.replicate 8 (0, 0), 0⟩ : hash_map) (by norm_num) (by decide)) (by decide) (by decide))
    1 5 7 (by decide) ⟨by decide, 1, by decide, by decide⟩
    (⟨0, [(0, 0), (1, 5), (0, 0), (0, 0), (0, 0), (0, 0), (0, 0), (0, 0)], 1⟩ : hash_map) 1 false (by decide)

/-- C8: rehash and reserve preserve the abstract key-to-value mapping of
the table whenever they complete. -/
theorem claim_C8 {hasher : Nat → Nat} {hm : hash_map} (hre : Reach hasher hm)
    (count : Nat) :
    (∀ hm2, rehash hasher hm count = some hm2 →
        ∀ k2 v2, mapsTo hm2 k2 v2 ↔ mapsTo hm k2 v2)
      ∧ (∀ hm2, reserve hasher hm count = some hm2 →
          ∀ k2 v2, mapsTo hm2 k2 v2 ↔ mapsTo hm k2 v2) := by
  have hwf := reach_WF hre
  constructor
  · intro hm2 h k2 v2
    unfold rehash at h
    exact (rehashWith_res_spec hwf h).2.2.2.1 k2 v2
  · intro hm2 h k2 v2
    unfold reserve rehash at h
    exact (rehashWith_res_spec hwf h).2.2.2.1 k2 v2

theorem claim_C8_witness :
    (∀ hm2, rehash (fun x => x) ⟨0, List.replicate 8 (0, 0), 0⟩ 100 = some hm2 →
        ∀ k2 v2, mapsTo hm2 k2 v2 ↔ mapsTo ⟨0, List.replicate 8 (0, 0), 0⟩ k2 v2)
      ∧ (∀ hm2, reserve (fun x => x) ⟨0, List.replicate 8 (0, 0), 0⟩ 100 = some hm2 →
          ∀ k2 v2, mapsTo hm2 k2 v2 ↔ mapsTo ⟨0, List.replicate 8 (0, 0), 0⟩ k2 v2) :=
  @claim_C8 (fun x => x) (⟨0, List.replicate 8 (0, 0), 0⟩ : hash_map) (Reach.ctor 8 0 (⟨0, List.replicate 8 (0, 0), 0⟩ : hash_map) (by norm_num) (by decide)) 100

/-- C9: probe termination.  On a reachable table whose load (as the growth
check measures it) leaves room for one more entry, the find and insert
probe loops, given `bucket_count` steps of fuel, never exhaust it: the scan
reaches a matching key or an empty slot within at most `bucket_count`
steps. -/
theorem claim_C9 {hasher : Nat → Nat} {hm : hash_map} (hre : Reach hasher hm)
    {key : Nat} (hkey : key ≠ hm.m_empty_key) (val : Nat)
    (hload : 2 * floatRound (hm.m_size + 1) ≤ bucket_count hm) :
    find_impl hasher hm key ≠ FindResult.diverged
      ∧ probeInsert hm key val (bucket_count hm) (key_to_idx hasher hm key)
          ≠ none := by
  have hwf := reach_WF hre
  classical
  by_cases hp : ∃ j, j < bucket_count hm ∧ keyAt hm j = key
  · obtain ⟨j, hj, hkj⟩ := hp
    constructor
    · rw [find_spec_found hwf hkey hj hkj]
      simp
    · rw [probeInsert_present_spec hwf hkey hj hkj]
      simp
  · push_neg at hp
    constructor
    · rw [find_spec_absent hwf hkey hp]
      simp
    · obtain ⟨e, hm2c, hrun, _⟩ :=
        @probeInsert_absent_spec hasher hm key val hwf hkey hp hload
      rw [hrun]
      simp

theorem claim_C9_witness :
    find_impl (fun x => x) ⟨0, List.replicate 8 (0, 0), 0⟩ 3 ≠ FindResult.diverged
      ∧ probeInsert ⟨0, List.replicate 8 (0, 0), 0⟩ 3 7
          (bucket_count ⟨0, List.replicate 8 (0, 0), 0⟩)
          (key_to_idx (fun x => x) ⟨0, List.replicate 8 (0, 0), 0⟩ 3) ≠ none :=
  @claim_C9 (fun x => x) (⟨0, List.replicate 8 (0, 0), 0⟩ : hash_map) (Reach.ctor 8 0 (⟨0, List.replicate 8 (0, 0), 0⟩ : hash_map) (by norm_num) (by decide)) 3 (by decide) 7 (by decide)

/-- C10 (amended): on every table reachable through the interface — whose
constructors were called with a nonzero capacity hint — the home index and
every probe successor are strictly below `bucket_count`; with a capacity
hint of 0, however, the constructor builds a zero-bucket table on which
`key_to_idx` produces an out-of-bounds index (see the counterexample). -/
theorem claim_C10 {hasher : Nat → Nat} {hm : hash_map} (hre : Reach hasher hm)
    (key idx : Nat) :
    key_to_idx hasher hm key < bucket_count hm
      ∧ probe_next hm idx < bucket_count hm := by
  obtain ⟨k, hk, hcap⟩ := (reach_WF hre).cap_pow
  exact ⟨key_to_idx_lt hcap (by omega), probe_next_lt hcap (by omega)⟩

theorem claim_C10_witness :
    key_to_idx (fun x => x) ⟨0, List.replicate 8 (0, 0), 0⟩ 123
        < bucket_count ⟨0, List.replicate 8 (0, 0), 0⟩
      ∧ probe_next ⟨0, List.replicate 8 (0, 0), 0⟩ 7
        < bucket_count ⟨0, List.replicate 8 (0, 0), 0⟩ :=
  @claim_C10 (fun x => x) (⟨0, List.replicate 8 (0, 0), 0⟩ : hash_map) (Reach.ctor 8 0 (⟨0, List.replicate 8 (0, 0), 0⟩ : hash_map) (by norm_num) (by decide)) 123 7

/-- C10 counterexample: `hash_map(0)` builds a table with zero buckets
(`compute_closest_capacity(0) = 0`), and on it the home index of key 1 is
`1 & (0 - 1) = 1`, not below `bucket_count() = 0`: the first probe of any
find or insert reads out of bounds. -/
theorem claim_C10_cex :
    mk_table 0 0 = some ⟨0, [], 0⟩
      ∧ ¬ key_to_idx (fun x => x) ⟨0, [], 0⟩ 1 < bucket_count ⟨0, [], 0⟩ :=
  ⟨by decide, by decide⟩

end JwHashMap
